import Mathlib

/-!
Verification of the DNS reconciliation engine of `caddy-dns-register`
(`app.go`): ownership classification (`parseOwnedRecords`), desired/observed
diffing, the apply protocol of `reconcileDomain`, and the record codec
(`toLibdnsRecord` / `extractValue` / `makeTXTMarker`).

Go strings are modelled as `List Char` (`Str`); Go `int` as `Int`;
TTLs are kept in seconds throughout (the code stores `time.Duration`s that
are whole seconds and reads them back with `int(ttl.Seconds())`).
`netip.ParseAddr` / `netip.Addr.String` (used by the A/AAAA branch of the
codec) are ported from the Go standard library `net/netip`.
-/

abbrev Str := List Char

/-- `strings.HasPrefix s pre`. -/
def strHasPrefix (s pre : Str) : Bool := pre.isPrefixOf s

/-- `strings.TrimPrefix s pre`. -/
def strTrimPrefix (s pre : Str) : Str :=
  if pre.isPrefixOf s then s.drop pre.length else s

/-! ## Port of `net/netip` address parsing and formatting -/

def isDigitCh (c : Char) : Bool := 48 ≤ c.toNat && c.toNat ≤ 57

def isHexCh (c : Char) : Bool :=
  isDigitCh c || (97 ≤ c.toNat && c.toNat ≤ 102) || (65 ≤ c.toNat && c.toNat ≤ 70)

def digitVal (c : Char) : Nat := c.toNat - 48

def hexVal (c : Char) : Nat :=
  if isDigitCh c then c.toNat - 48
  else if 97 ≤ c.toNat then c.toNat - 87
  else c.toNat - 55

def decValue (s : Str) : Nat := s.foldl (fun a c => a * 10 + digitVal c) 0

def digitChar (n : Nat) : Char := Char.ofNat (48 + n)

def hexChar (n : Nat) : Char := Char.ofNat (if n < 10 then 48 + n else 87 + n)

def natToDecAux : Nat → Nat → Str
  | 0, _ => []
  | fuel + 1, n =>
    if n < 10 then [digitChar n]
    else natToDecAux fuel (n / 10) ++ [digitChar (n % 10)]

/-- Decimal rendering of a `Nat` (as Go `fmt` / `strconv` produce it). -/
def natToDec (n : Nat) : Str := natToDecAux (n + 1) n

def natToHexAux : Nat → Nat → Str
  | 0, _ => []
  | fuel + 1, n =>
    if n < 16 then [hexChar n]
    else natToHexAux fuel (n / 16) ++ [hexChar (n % 16)]

/-- Lowercase hexadecimal rendering of a `Nat` (Go `appendHex`). -/
def natToHex (n : Nat) : Str := natToHexAux (n + 1) n

def splitOnChar (c : Char) : Str → List Str
  | [] => [[]]
  | x :: xs =>
    let r := splitOnChar c xs
    if x = c then [] :: r
    else
      match r with
      | [] => [[x]]
      | y :: ys => (x :: y) :: ys

/-- One dot-separated field of an IPv4 literal, per Go `parseIPv4Fields`:
nonempty, all digits, no leading zero, value at most 255. -/
def parseOctet : Str → Option Nat
  | [] => none
  | c :: cs =>
    if !(c :: cs).all isDigitCh then none
    else if c = '0' && !cs.isEmpty then none
    else
      let v := decValue (c :: cs)
      if v > 255 then none else some v

inductive IPAddr where
  | v4 (a b c d : Nat)
  | v6 (groups : List Nat) (zone : Str)
deriving DecidableEq, Repr

/-- Go `parseIPv4`. -/
def parseIPv4 (s : Str) : Option IPAddr :=
  match splitOnChar '.' s with
  | [f1, f2, f3, f4] =>
    match parseOctet f1, parseOctet f2, parseOctet f3, parseOctet f4 with
    | some a, some b, some c, some d => some (IPAddr.v4 a b c d)
    | _, _, _, _ => none
  | _ => none

/-- The field-consuming loop of Go `parseIPv6`.  State: remaining input,
number of bytes already filled, the bytes, position of `::` if seen.
Returns the bytes, the fill count and the `::` position. -/
def p6loop : Nat → Str → Nat → List Nat → Option Nat →
    Option (List Nat × Nat × Option Nat)
  | 0, _, _, _, _ => none
  | fuel + 1, s, i, bytes, ell =>
    if i ≥ 16 then
      -- loop exit; Go then rejects trailing input
      if s = [] then some (bytes, i, ell) else none
    else
      let digs := s.takeWhile isHexCh
      let rest := s.dropWhile isHexCh
      let acc := digs.foldl (fun a c => a * 16 + hexVal c) 0
      if digs.length = 0 then none
      else if acc > 65535 then none
      else if rest.head? = some '.' then
        -- embedded IPv4 address; Go re-parses from the start of this field
        if ell = none ∧ i ≠ 12 then none
        else if i + 4 > 16 then none
        else
          match parseIPv4 s with
          | some (IPAddr.v4 a b c d) => some (bytes ++ [a, b, c, d], i + 4, ell)
          | _ => none
      else
        let bytes := bytes ++ [acc / 256, acc % 256]
        let i := i + 2
        match rest with
        | [] => some (bytes, i, ell)
        | c :: rest' =>
          if c ≠ ':' then none
          else if rest' = [] then none
          else
            match rest' with
            | ':' :: rest'' =>
              if ell ≠ none then none
              else if rest'' = [] then some (bytes, i, some i)
              else p6loop fuel rest'' i bytes (some i)
            | _ => p6loop fuel rest' i bytes ell

/-- Pair up 16 bytes into 8 16-bit groups. -/
def bytesToGroups : List Nat → List Nat
  | a :: b :: rest => (a * 256 + b) :: bytesToGroups rest
  | _ => []

/-- Go `parseIPv6` (zone split, leading `::`, field loop, `::` expansion). -/
def parseIPv6 (s0 : Str) : Option IPAddr :=
  let ipPart := s0.takeWhile (· ≠ '%')
  let restZ := s0.dropWhile (· ≠ '%')
  let zoneOk := restZ = [] ∨ restZ.length ≥ 2
  let zone := restZ.drop 1
  if ¬ zoneOk then none
  else
    let hasEll := strHasPrefix ipPart [':', ':']
    let s1 := if hasEll then ipPart.drop 2 else ipPart
    let ell0 : Option Nat := if hasEll then some 0 else none
    if hasEll ∧ s1 = [] then
      some (IPAddr.v6 (List.replicate 8 0) zone)
    else
      match p6loop (s1.length + 1) s1 0 [] ell0 with
      | none => none
      | some (bytes, i, ell) =>
        if i < 16 then
          match ell with
          | none => none
          | some e =>
            let full := bytes.take e ++ List.replicate (16 - i) 0 ++ bytes.drop e
            some (IPAddr.v6 (bytesToGroups full) zone)
        else if ell ≠ none then none
        else some (IPAddr.v6 (bytesToGroups bytes) zone)

/-- Go `ParseAddr`: dispatch on the first of `.`, `:`, `%`. -/
def parseAddr (s : Str) : Option IPAddr :=
  match s.find? (fun c => c = '.' || c = ':' || c = '%') with
  | some '.' => parseIPv4 s
  | some ':' => parseIPv6 s
  | _ => none

def formatV4g (a b c d : Nat) : Str :=
  natToDec a ++ '.' :: natToDec b ++ '.' :: natToDec c ++ '.' :: natToDec d

def intercalateColon : List Str → Str
  | [] => []
  | [x] => x
  | x :: xs => x ++ ':' :: intercalateColon xs

/-- Leftmost longest run (of length at least 2) of zero groups,
as Go `Addr.string6` computes it. -/
def bestZeroRun (gs : List Nat) : Option (Nat × Nat) :=
  (List.range gs.length).foldl
    (fun best i =>
      let l := ((gs.drop i).takeWhile (fun g => g = 0)).length
      match best with
      | none => if l ≥ 2 then some (i, l) else none
      | some (bi, bl) => if l ≥ 2 ∧ l > bl then some (i, l) else some (bi, bl))
    none

/-- RFC 5952 rendering of 8 groups (Go `Addr.string6`). -/
def string6 (gs : List Nat) : Str :=
  match bestZeroRun gs with
  | none => intercalateColon (gs.map natToHex)
  | some (s, l) =>
    intercalateColon ((gs.take s).map natToHex) ++ [':', ':'] ++
      intercalateColon ((gs.drop (s + l)).map natToHex)

/-- Go `Addr.String`: dotted quad for IPv4, `::ffff:a.b.c.d` for
IPv4-mapped IPv6, RFC 5952 otherwise; zone appended after `%`. -/
def formatAddr : IPAddr → Str
  | IPAddr.v4 a b c d => formatV4g a b c d
  | IPAddr.v6 gs zone =>
    let core :=
      match gs with
      | [0, 0, 0, 0, 0, 65535, g6, g7] =>
        [':', ':', 'f', 'f', 'f', 'f', ':'] ++
          formatV4g (g6 / 256) (g6 % 256) (g7 / 256) (g7 % 256)
      | _ => string6 gs
    core ++ (if zone = [] then [] else '%' :: zone)

/-! ## Data model (`app.go`) -/

/-- `Record` of `app.go`: a declared (or reconstructed) DNS record. -/
structure Record where
  name : Str
  type : Str
  value : Str
  ttl : Int
deriving DecidableEq, Repr

/-- `libdns.RR`: the generic name/type/TTL/data view of a record.
TTL is kept in whole seconds (`int(rr.TTL.Seconds())`). -/
structure RRData where
  name : Str
  type : Str
  ttl : Int
  data : Str
deriving DecidableEq, Repr

/-- The closed union of `libdns.Record` variants the code constructs or
inspects: `Address`, `TXT`, `CNAME`, `MX`, `NS` and the generic `RR`. -/
inductive LibdnsRecord where
  | address (name : Str) (ip : IPAddr) (ttl : Int)
  | txt (name : Str) (text : Str) (ttl : Int)
  | cname (name : Str) (target : Str) (ttl : Int)
  | mx (name : Str) (preference : Nat) (target : Str) (ttl : Int)
  | ns (name : Str) (target : Str) (ttl : Int)
  | rr (name : Str) (type : Str) (ttl : Int) (data : Str)
deriving DecidableEq, Repr

/-- Whether an `IPAddr` is an IPv4 address (`netip.Addr.Is4`; false for
IPv4-mapped IPv6). -/
def IPAddr.is4 : IPAddr → Bool
  | IPAddr.v4 _ _ _ _ => true
  | IPAddr.v6 _ _ => false

/-- The `RR()` method of each `libdns` variant. -/
def LibdnsRecord.RR : LibdnsRecord → RRData
  | LibdnsRecord.address n ip ttl =>
    ⟨n, if ip.is4 then ['A'] else ['A', 'A', 'A', 'A'], ttl, formatAddr ip⟩
  | LibdnsRecord.txt n text ttl => ⟨n, ['T', 'X', 'T'], ttl, text⟩
  | LibdnsRecord.cname n target ttl => ⟨n, "CNAME".data, ttl, target⟩
  | LibdnsRecord.mx n pref target ttl =>
    ⟨n, ['M', 'X'], ttl, natToDec pref ++ ' ' :: target⟩
  | LibdnsRecord.ns n target ttl => ⟨n, ['N', 'S'], ttl, target⟩
  | LibdnsRecord.rr n ty ttl d => ⟨n, ty, ttl, d⟩

def txtPrefix : Str := "_cdr.".data

def txtHeritage : Str := "caddy-dns-register".data

/-- `fmt.Sprintf("owner=%s,heritage=%s", ownerID, txtHeritage)`. -/
def expectedMarkerValue (ownerID : Str) : Str :=
  "owner=".data ++ ownerID ++ ",heritage=".data ++ txtHeritage

/-- `makeTXTMarker`: the ownership marker for a record name. -/
def makeTXTMarker (ownerID name : Str) : LibdnsRecord :=
  LibdnsRecord.txt (txtPrefix ++ name) (expectedMarkerValue ownerID) 300

/-- `extractValue`: comparable value string of a `libdns.Record`. -/
def extractValue : LibdnsRecord → Str
  | LibdnsRecord.address _ ip _ => formatAddr ip
  | LibdnsRecord.txt _ text _ => text
  | LibdnsRecord.cname _ target _ => target
  | LibdnsRecord.mx _ pref target _ => natToDec pref ++ ' ' :: target
  | LibdnsRecord.ns _ target _ => target
  | LibdnsRecord.rr _ _ _ d => d

/-- Two's-complement wraparound of a 64-bit signed integer (Go `int64`). -/
def wrap64 (x : Int) : Int :=
  (x + 9223372036854775808) % 18446744073709551616 - 9223372036854775808

/-- `ttl := time.Duration(rec.TTL) * time.Second` in `toLibdnsRecord`: the
configured whole-second TTL converted to int64 nanoseconds (wrapping on
overflow), then the `if ttl == 0` default of `300 * time.Second`. -/
def durTTL (ttl : Int) : Int :=
  if wrap64 (ttl * 1000000000) = 0 then 300000000000
  else wrap64 (ttl * 1000000000)

/-- `int(d.Seconds())`: the whole seconds of a duration, truncated toward
zero (exact for the whole-second durations this model compares). -/
def durSeconds (d : Int) : Int := Int.tdiv d 1000000000

/-- The whole-second TTL carried by a record sent with configured TTL
`ttl`: `int(rr.TTL.Seconds())` of the duration `toLibdnsRecord` stores.
Provider records in this model carry their duration by this whole-second
image, which is what both classification and the diff read back. -/
def storedTTL (ttl : Int) : Int := durSeconds (durTTL ttl)

/-- A configured TTL whose nanosecond duration fits in int64 without
wraparound (|ttl| ≤ 9223372036 seconds). -/
def ttlOK (ttl : Int) : Prop := -9223372036 ≤ ttl ∧ ttl ≤ 9223372036

/-- The wrap-free image of `storedTTL`: for TTLs inside the int64 range
the conversion only applies the zero-default of 300 seconds. -/
def dfltTTL (ttl : Int) : Int := if ttl = 0 then 300 else ttl

/-- `toLibdnsRecord`: convert a `Record` to a `libdns.Record`. -/
def toLibdnsRecord (rec : Record) : LibdnsRecord :=
  let ttl := storedTTL rec.ttl
  if rec.type = ['A'] ∨ rec.type = ['A', 'A', 'A', 'A'] then
    match parseAddr rec.value with
    | none => LibdnsRecord.rr rec.name rec.type ttl rec.value
    | some ip => LibdnsRecord.address rec.name ip ttl
  else if rec.type = ['T', 'X', 'T'] then
    LibdnsRecord.txt rec.name rec.value ttl
  else if rec.type = "CNAME".data then
    LibdnsRecord.cname rec.name rec.value ttl
  else
    LibdnsRecord.rr rec.name rec.type ttl rec.value

/-! ## String-keyed maps (Go `map[string]*Record`) -/

/-- The identity key `name + ":" + type`. -/
def keyOf (name ty : Str) : Str := name ++ ':' :: ty

def recKey (r : Record) : Str := keyOf r.name r.type

abbrev RecMap := List (Str × Record)

def mfind (m : RecMap) (k : Str) : Option Record :=
  match m.find? (fun p => p.1 = k) with
  | some p => some p.2
  | none => none

/-- Go map assignment `m[k] = v`: replace if present, else add. -/
def minsert (m : RecMap) (k : Str) (v : Record) : RecMap :=
  if m.any (fun p => p.1 = k) then
    m.map (fun p => if p.1 = k then (k, v) else p)
  else m ++ [(k, v)]

def mkeys (m : RecMap) : List Str := m.map (fun p => p.1)

/-! ## Ownership classification (`parseOwnedRecords`) -/

/-- First pass of `parseOwnedRecords`: the names claimed by a valid
ownership marker of this `ownerID` (TXT record named `_cdr.<target>` whose
data is the expected payload, bare or wrapped once in double quotes). -/
def markerNames (ownerID : Str) (records : List LibdnsRecord) : List Str :=
  records.filterMap (fun rec =>
    if rec.RR.type = ['T', 'X', 'T'] ∧ strHasPrefix rec.RR.name txtPrefix then
      if rec.RR.data = expectedMarkerValue ownerID ∨
          rec.RR.data = '"' :: (expectedMarkerValue ownerID ++ ['"']) then
        some (strTrimPrefix rec.RR.name txtPrefix)
      else none
    else none)

/-- One iteration of the second pass of `parseOwnedRecords`: skip markers,
collect a record whose name was claimed, keyed by `name + ":" + type`
(later records overwrite). -/
def classifyStep (markers : List Str) (owned : RecMap) (rec : LibdnsRecord) : RecMap :=
  if strHasPrefix rec.RR.name txtPrefix then owned
  else if markers.contains rec.RR.name then
    minsert owned (keyOf rec.RR.name rec.RR.type)
      ⟨rec.RR.name, rec.RR.type, extractValue rec, rec.RR.ttl⟩
  else owned

/-- `parseOwnedRecords`: the owned index of a snapshot. -/
def parseOwnedRecords (ownerID : Str) (records : List LibdnsRecord) : RecMap :=
  records.foldl (classifyStep (markerNames ownerID records)) []

/-! ## Diffing (`reconcileDomain`, lines 147-175) -/

def desiredStep (m : RecMap) (r : Record) : RecMap := minsert m (recKey r) r

def buildDesired (records : List Record) : RecMap :=
  records.foldl desiredStep []

structure Plan where
  toCreate : List Record
  toUpdate : List Record
  toDelete : List Str
deriving DecidableEq, Repr

def emptyPlan : Plan := ⟨[], [], []⟩

/-- The three-way diff as computed inline in `reconcileDomain`. -/
def computePlan (owned desired : RecMap) : Plan where
  toDelete := (owned.filter (fun p => (mfind desired p.1).isNone)).map (fun p => p.1)
  toCreate := (desired.filter (fun p => (mfind owned p.1).isNone)).map (fun p => p.2)
  toUpdate := desired.filterMap (fun p =>
    match mfind owned p.1 with
    | some existingRec =>
      if existingRec.value ≠ p.2.value ∨ ((0 : Int) < p.2.ttl ∧ existingRec.ttl ≠ p.2.ttl)
      then some p.2 else none
    | none => none)

/-- Fetch, classify and diff: what one reconciliation pass would plan. -/
def planOf (ownerID : Str) (zone : List LibdnsRecord) (records : List Record) : Plan :=
  computePlan (parseOwnedRecords ownerID zone) (buildDesired records)

/-! ## Provider model and the apply phases -/

abbrev Zone := List LibdnsRecord

def sameNameType (x y : LibdnsRecord) : Bool :=
  x.RR.name == y.RR.name && x.RR.type == y.RR.type

/-- `SetRecords`: replace each (name, type) RRset given, keep the rest. -/
def setRecords (zone : Zone) (recs : List LibdnsRecord) : Zone :=
  zone.filter (fun z => !recs.any (fun r => sameNameType z r)) ++ recs

/-- `AppendRecords`. -/
def appendRecords (zone : Zone) (recs : List LibdnsRecord) : Zone := zone ++ recs

/-- `DeleteRecords`: remove the records that exactly match the input. -/
def deleteRecords (zone : Zone) (recs : List LibdnsRecord) : Zone :=
  zone.filter (fun z => !recs.contains z)

/-- Capability set and failure injection for a provider whose successful
calls apply the requested records faithfully. -/
structure Provider where
  hasGetter : Bool
  hasSetter : Bool
  hasAppender : Bool
  hasDeleter : Bool
  fetchFails : Bool
  setFails : Zone → List LibdnsRecord → Bool
  appendFails : Zone → List LibdnsRecord → Bool
  deleteFails : Zone → List LibdnsRecord → Bool

/-- Fully capable provider on which every call succeeds. -/
def faithfulProvider : Provider :=
  ⟨true, true, true, true, false,
   fun _ _ => false, fun _ _ => false, fun _ _ => false⟩

/-- One reported outcome (the log calls of the apply phases). -/
inductive Event where
  | planned (creates updates deletes : List Str)
  | deleted (name ty : Str)
  | deleteFailed (name ty : Str)
  | created (name ty value : Str)
  | createFailed (name ty : Str)
  | updated (name ty value : Str)
  | updateFailed (name ty : Str)
deriving DecidableEq, Repr

/-- One delete-phase iteration (`reconcileDomain`, lines 198-220). -/
def deleteStep (ownerID : Str) (p : Provider) (owned : RecMap)
    (st : List Event × Zone) (key : Str) : List Event × Zone :=
  -- parts := strings.SplitN(key, ":", 2); continue unless len(parts) == 2
  if !key.contains ':' then st
  else
    match mfind owned key with
    | none => st  -- unreachable: every planned key is a key of `owned`
    | some rec =>
      if p.deleteFails st.2 [toLibdnsRecord rec, makeTXTMarker ownerID rec.name] then
        (st.1 ++ [Event.deleteFailed rec.name rec.type], st.2)
      else
        (st.1 ++ [Event.deleted rec.name rec.type],
         deleteRecords st.2 [toLibdnsRecord rec, makeTXTMarker ownerID rec.name])

/-- Delete phase (`reconcileDomain`, lines 196-221). -/
def runDeletes (ownerID : Str) (p : Provider) (owned : RecMap)
    (keys : List Str) (st : List Event × Zone) : List Event × Zone :=
  keys.foldl (deleteStep ownerID p owned) st

/-- One create-phase iteration (lines 225-247): upsert when available,
else append. -/
def createStep (ownerID : Str) (p : Provider)
    (st : List Event × Zone) (rec : Record) : List Event × Zone :=
  if p.hasSetter then
    if p.setFails st.2 [toLibdnsRecord rec, makeTXTMarker ownerID rec.name] then
      (st.1 ++ [Event.createFailed rec.name rec.type], st.2)
    else
      (st.1 ++ [Event.created rec.name rec.type rec.value],
       setRecords st.2 [toLibdnsRecord rec, makeTXTMarker ownerID rec.name])
  else
    if p.appendFails st.2 [toLibdnsRecord rec, makeTXTMarker ownerID rec.name] then
      (st.1 ++ [Event.createFailed rec.name rec.type], st.2)
    else
      (st.1 ++ [Event.created rec.name rec.type rec.value],
       appendRecords st.2 [toLibdnsRecord rec, makeTXTMarker ownerID rec.name])

/-- Create phase (lines 223-248). -/
def runCreates (ownerID : Str) (p : Provider)
    (recs : List Record) (st : List Event × Zone) : List Event × Zone :=
  recs.foldl (createStep ownerID p) st

/-- One update-phase iteration (lines 252-267): upsert of the data record
only, the marker is not rewritten. -/
def updateStep (p : Provider)
    (st : List Event × Zone) (rec : Record) : List Event × Zone :=
  if p.setFails st.2 [toLibdnsRecord rec] then
    (st.1 ++ [Event.updateFailed rec.name rec.type], st.2)
  else
    (st.1 ++ [Event.updated rec.name rec.type rec.value],
     setRecords st.2 [toLibdnsRecord rec])

/-- Update phase (lines 250-268). -/
def runUpdates (p : Provider)
    (recs : List Record) (st : List Event × Zone) : List Event × Zone :=
  recs.foldl (updateStep p) st

/-- The three apply phases of `reconcileDomain` in their fixed order:
deletes (if the capability is present and the set nonempty), then creates,
then updates (if the upsert capability is present). -/
def phaseChain (ownerID : Str) (p : Provider) (owned : RecMap) (plan : Plan)
    (st0 : List Event × Zone) : List Event × Zone :=
  let st1 := if p.hasDeleter ∧ plan.toDelete ≠ [] then
      runDeletes ownerID p owned plan.toDelete st0 else st0
  let st2 := if plan.toCreate ≠ [] then runCreates ownerID p plan.toCreate st1 else st1
  if p.hasSetter ∧ plan.toUpdate ≠ [] then runUpdates p plan.toUpdate st2 else st2

/-- `reconcileDomain`: one reconciliation pass over a zone, returning the
reported outcomes and the resulting zone contents. -/
def reconcileDomain (ownerID : Str) (p : Provider) (zone : Zone)
    (records : List Record) : Except Str (List Event × Zone) :=
  if !p.hasGetter then
    Except.error "provider does not implement RecordGetter".data
  else if !p.hasSetter && !p.hasAppender then
    Except.error "provider does not implement RecordSetter or RecordAppender".data
  else if p.fetchFails then
    Except.error "getting existing records".data
  else
    let owned := parseOwnedRecords ownerID zone
    let desired := buildDesired records
    let plan := computePlan owned desired
    let createNames := plan.toCreate.map recKey
    let updateNames := plan.toUpdate.map recKey
    Except.ok (phaseChain ownerID p owned plan
      ([Event.planned createNames updateNames plan.toDelete], zone))

/-- A zone holding exactly the records this instance would have written
for declared list `recs`: each record's codec image next to its marker. -/
def materialize (ownerID : Str) (recs : List Record) : Zone :=
  recs.flatMap (fun r => [toLibdnsRecord r, makeTXTMarker ownerID r.name])

/-! ## Verification-layer definitions -/

def isDeleteOutcome : Event → Bool
  | Event.deleted _ _ => true
  | Event.deleteFailed _ _ => true
  | _ => false

def isCreateOutcome : Event → Bool
  | Event.created _ _ _ => true
  | Event.createFailed _ _ => true
  | _ => false

def isUpdateOutcome : Event → Bool
  | Event.updated _ _ _ => true
  | Event.updateFailed _ _ => true
  | _ => false

/-- The `Record` that classification reconstructs from a provider record. -/
def reconstructRec (z : LibdnsRecord) : Record :=
  ⟨z.RR.name, z.RR.type, extractValue z, z.RR.ttl⟩

/-- A declared record with the TTL conversion of `toLibdnsRecord` applied. -/
def defRec (r : Record) : Record := ⟨r.name, r.type, r.value, storedTTL r.ttl⟩

/-- A declared record whose name stays clear of the marker namespace and of
the `:` key separator, whose codec image reproduces its type and its value,
and whose TTL converts to a nanosecond duration without int64 wraparound. -/
def goodRec (r : Record) : Prop :=
  ¬ strHasPrefix r.name txtPrefix ∧ ':' ∉ r.name ∧
    (toLibdnsRecord r).RR.type = r.type ∧
    extractValue (toLibdnsRecord r) = r.value ∧ ttlOK r.ttl

/-- The records one delete-phase iteration asks the provider to remove. -/
def delTargets (ownerID : Str) (owned : RecMap) (key : Str) : List LibdnsRecord :=
  if !key.contains ':' then []
  else
    match mfind owned key with
    | none => []
    | some rec => [toLibdnsRecord rec, makeTXTMarker ownerID rec.name]

/-- A zone record untouched by the delete phase for the given keys. -/
def delPred (ownerID : Str) (owned : RecMap) (keys : List Str) (z : LibdnsRecord) : Bool :=
  !keys.any (fun k => (delTargets ownerID owned k).contains z)

/-- A zone record not replaced by any create-phase upsert for `recs`. -/
def createPred (ownerID : Str) (recs : List Record) (z : LibdnsRecord) : Bool :=
  !recs.any (fun r => sameNameType z (toLibdnsRecord r) ||
    sameNameType z (makeTXTMarker ownerID r.name))

/-- A zone record not replaced by any update-phase upsert for `recs`. -/
def updatePred (recs : List Record) (z : LibdnsRecord) : Bool :=
  !recs.any (fun r => sameNameType z (toLibdnsRecord r))

/-- The three apply phases run unconditionally on the fully capable
provider (each phase is the identity on an empty plan set). -/
def applyFaithful (ownerID : Str) (owned : RecMap) (plan : Plan)
    (st : List Event × Zone) : List Event × Zone :=
  runUpdates faithfulProvider plan.toUpdate
    (runCreates ownerID faithfulProvider plan.toCreate
      (runDeletes ownerID faithfulProvider owned plan.toDelete st))

/-! ## Map lemmas -/

theorem mfind_mem {m : RecMap} {k : Str} {r : Record} (h : mfind m k = some r) :
    (k, r) ∈ m := by
  unfold mfind at h
  split at h
  · next p hf =>
    injection h with h2
    have hp := List.find?_some hf
    have hm := List.mem_of_find?_eq_some hf
    simp only [decide_eq_true_eq] at hp
    subst h2
    rw [← hp]
    simpa using hm
  · cases h

theorem mfind_eq_none {m : RecMap} {k : Str} : mfind m k = none ↔ k ∉ mkeys m := by
  unfold mfind mkeys
  cases hf : List.find? (fun p => decide (p.1 = k)) m with
  | none =>
    simp only [List.find?_eq_none, decide_eq_true_eq] at hf
    simp only [List.mem_map, true_iff]
    rintro ⟨p, hp, hpk⟩
    exact hf p hp hpk
  | some p =>
    have hp := List.find?_some hf
    have hm := List.mem_of_find?_eq_some hf
    simp only [decide_eq_true_eq] at hp
    exact iff_of_false (by simp) (not_not_intro (List.mem_map.mpr ⟨p, hm, hp⟩))

theorem mfind_isSome_of_mem_keys {m : RecMap} {k : Str} (h : k ∈ mkeys m) :
    (mfind m k).isSome = true := by
  cases hf : mfind m k with
  | none => exact absurd h (mfind_eq_none.mp hf)
  | some r => rfl

theorem mfind_of_mem {m : RecMap} (hnd : (mkeys m).Nodup) {k : Str} {r : Record}
    (h : (k, r) ∈ m) : mfind m k = some r := by
  induction m with
  | nil => cases h
  | cons p m ih =>
    simp only [mkeys, List.map_cons, List.nodup_cons] at hnd
    rcases List.mem_cons.mp h with h1 | h2
    · rw [← h1]
      unfold mfind
      rw [List.find?_cons_of_pos _ (by simp)]
    · have hk : p.1 ≠ k := by
        intro he
        exact hnd.1 (by rw [he]; exact List.mem_map.mpr ⟨(k, r), h2, rfl⟩)
      have hrec := ih hnd.2 h2
      unfold mfind at hrec ⊢
      rw [List.find?_cons_of_neg _ (by simpa using hk)]
      exact hrec

theorem minsert_of_not_mem {m : RecMap} {k : Str} (v : Record) (h : k ∉ mkeys m) :
    minsert m k v = m ++ [(k, v)] := by
  unfold minsert
  rw [if_neg]
  simp only [List.any_eq_true, decide_eq_true_eq, not_exists, not_and]
  intro p hp hpk
  exact h (List.mem_map.mpr ⟨p, hp, hpk⟩)

theorem mfind_map_step (m : RecMap) (k k' : Str) (v : Record) (h : k' ≠ k) :
    mfind (m.map (fun q => if q.1 = k then (k, v) else q)) k' = mfind m k' := by
  induction m with
  | nil => rfl
  | cons q m ih =>
    by_cases hq : q.1 = k
    · simp only [List.map_cons, if_pos hq]
      unfold mfind
      rw [List.find?_cons_of_neg _ (by simp [Ne.symm h]),
        List.find?_cons_of_neg _ (by simp [hq, Ne.symm h])]
      unfold mfind at ih
      exact ih
    · simp only [List.map_cons, if_neg hq]
      by_cases hk' : q.1 = k'
      · unfold mfind
        rw [List.find?_cons_of_pos _ (by simp [hk']),
          List.find?_cons_of_pos _ (by simp [hk'])]
      · unfold mfind
        rw [List.find?_cons_of_neg _ (by simp [hk']),
          List.find?_cons_of_neg _ (by simp [hk'])]
        unfold mfind at ih
        exact ih

theorem mfind_minsert (m : RecMap) (k k' : Str) (v : Record) :
    mfind (minsert m k v) k' = if k' = k then some v else mfind m k' := by
  induction m with
  | nil =>
    by_cases h : k' = k
    · simp [minsert, mfind, List.find?, h]
    · simp [minsert, mfind, List.find?, h, Ne.symm h]
  | cons p m ih =>
    by_cases hc : (p :: m).any (fun q => decide (q.1 = k))
    · unfold minsert
      rw [if_pos hc]
      by_cases hp : p.1 = k
      · simp only [List.map_cons, if_pos hp]
        by_cases h' : k' = k
        · unfold mfind
          rw [List.find?_cons_of_pos _ (by simp [h'])]
          simp [h']
        · unfold mfind
          rw [List.find?_cons_of_neg _ (by simp [Ne.symm h']),
            List.find?_cons_of_neg _ (by simp [hp, Ne.symm h'])]
          have := mfind_map_step m k k' v h'
          unfold mfind at this
          rw [if_neg h']
          exact this
      · simp only [List.map_cons, if_neg hp]
        by_cases hk' : p.1 = k'
        · have h' : k' ≠ k := by rw [← hk']; exact hp
          unfold mfind
          rw [List.find?_cons_of_pos _ (by simp [hk']), if_neg h',
            List.find?_cons_of_pos _ (by simp [hk'])]
        · rw [List.any_cons] at hc
          have hcm : m.any (fun q => decide (q.1 = k)) := by
            rw [decide_eq_false hp, Bool.false_or] at hc
            exact hc
          unfold mfind
          rw [List.find?_cons_of_neg _ (by simp [hk'])]
          have hmin := ih
          unfold minsert at hmin
          rw [if_pos hcm] at hmin
          unfold mfind at hmin
          rw [hmin]
          by_cases h' : k' = k
          · simp [h']
          · rw [if_neg h', if_neg h', List.find?_cons_of_neg _ (by simp [hk'])]
    · have hexp := minsert_of_not_mem (m := p :: m) (k := k) v
        (by
          intro hmem
          apply hc
          rcases List.mem_map.mp hmem with ⟨q, hq, hqk⟩
          exact List.any_eq_true.mpr ⟨q, hq, by simp [hqk]⟩)
      rw [hexp]
      rw [List.any_cons] at hc
      have hp : ¬ p.1 = k := by
        intro h
        apply hc
        simp [List.any_cons, h]
      have hcm : ¬ m.any (fun q => decide (q.1 = k)) := by
        intro h
        exact hc (by simp [h])
      by_cases h' : k' = k
      · unfold mfind
        rw [if_pos h', List.cons_append, List.find?_cons_of_neg _ (by simp [hp, h'])]
        have hmin := ih
        rw [minsert_of_not_mem v (by
          intro hmem
          rcases List.mem_map.mp hmem with ⟨q, hq, hqk⟩
          exact hcm (List.any_eq_true.mpr ⟨q, hq, by simp [hqk]⟩))] at hmin
        unfold mfind at hmin
        rw [if_pos h'] at hmin
        exact hmin
      · by_cases hk' : p.1 = k'
        · unfold mfind
          rw [List.cons_append, List.find?_cons_of_pos _ (by simp [hk']), if_neg h',
            List.find?_cons_of_pos _ (by simp [hk'])]
        · unfold mfind
          rw [List.cons_append, List.find?_cons_of_neg _ (by simp [hk']), if_neg h',
            List.find?_cons_of_neg _ (by simp [hk'])]
          have hmin := ih
          rw [minsert_of_not_mem v (by
            intro hmem
            rcases List.mem_map.mp hmem with ⟨q, hq, hqk⟩
            exact hcm (List.any_eq_true.mpr ⟨q, hq, by simp [hqk]⟩))] at hmin
          unfold mfind at hmin
          rw [if_neg h'] at hmin
          exact hmin

theorem mkeys_map_step (m : RecMap) (k : Str) (v : Record) :
    mkeys (m.map (fun q => if q.1 = k then (k, v) else q)) = mkeys m := by
  unfold mkeys
  rw [List.map_map]
  apply List.map_congr_left
  intro p _
  by_cases h : p.1 = k <;> simp [h]

theorem mem_mkeys_minsert {m : RecMap} {k : Str} {v : Record} {k' : Str} :
    k' ∈ mkeys (minsert m k v) ↔ k' ∈ mkeys m ∨ k' = k := by
  unfold minsert
  by_cases hc : m.any (fun q => decide (q.1 = k))
  · rw [if_pos hc, mkeys_map_step]
    rcases List.any_eq_true.mp hc with ⟨q, hq, hqk⟩
    simp only [decide_eq_true_eq] at hqk
    constructor
    · exact Or.inl
    · rintro (h | h)
      · exact h
      · rw [h, ← hqk]; exact List.mem_map.mpr ⟨q, hq, rfl⟩
  · rw [if_neg hc]
    unfold mkeys
    rw [List.map_append, List.mem_append]
    simp only [List.map_cons, List.map_nil, List.mem_singleton]

theorem mkeys_nodup_minsert {m : RecMap} (hnd : (mkeys m).Nodup) (k : Str) (v : Record) :
    (mkeys (minsert m k v)).Nodup := by
  unfold minsert
  by_cases hc : m.any (fun q => decide (q.1 = k))
  · rw [if_pos hc, mkeys_map_step]
    exact hnd
  · rw [if_neg hc]
    unfold mkeys
    rw [List.map_append]
    simp only [List.map_cons, List.map_nil]
    rw [List.nodup_append]
    refine ⟨hnd, List.nodup_singleton k, ?_⟩
    intro a ha hb
    rw [List.mem_singleton] at hb
    subst hb
    rcases List.mem_map.mp ha with ⟨q, hq, hqk⟩
    exact hc (List.any_eq_true.mpr ⟨q, hq, by simp [hqk]⟩)

theorem minsert_entry_sub {m : RecMap} {k : Str} {v : Record} {p : Str × Record}
    (h : p ∈ minsert m k v) : p ∈ m ∨ p = (k, v) := by
  unfold minsert at h
  split at h
  · rcases List.mem_map.mp h with ⟨q, hq, hqe⟩
    by_cases hqk : q.1 = k
    · rw [if_pos hqk] at hqe
      exact Or.inr hqe.symm
    · rw [if_neg hqk] at hqe
      exact Or.inl (hqe ▸ hq)
  · rcases List.mem_append.mp h with h1 | h1
    · exact Or.inl h1
    · exact Or.inr (List.mem_singleton.mp h1)

/-! ## Classification lemmas -/

theorem classify_fold_entry {markers : List Str} {l : List LibdnsRecord} {init : RecMap} :
    ∀ p ∈ l.foldl (classifyStep markers) init,
      p ∈ init ∨ ∃ z ∈ l, ¬ strHasPrefix z.RR.name txtPrefix ∧
        markers.contains z.RR.name ∧
        p = (keyOf z.RR.name z.RR.type, reconstructRec z) := by
  induction l generalizing init with
  | nil => exact fun p hp => Or.inl hp
  | cons z l ih =>
    intro p hp
    rw [List.foldl_cons] at hp
    rcases ih p hp with hinit | ⟨z', hz', h1, h2, h3⟩
    · unfold classifyStep at hinit
      by_cases hpre : strHasPrefix z.RR.name txtPrefix
      · rw [if_pos hpre] at hinit
        exact Or.inl hinit
      · rw [if_neg hpre] at hinit
        by_cases hcm : markers.contains z.RR.name
        · rw [if_pos hcm] at hinit
          rcases minsert_entry_sub hinit with h | h
          · exact Or.inl h
          · exact Or.inr ⟨z, List.mem_cons_self z l, hpre, hcm, by rw [h]; rfl⟩
        · rw [if_neg hcm] at hinit
          exact Or.inl hinit
    · exact Or.inr ⟨z', List.mem_cons_of_mem z hz', h1, h2, h3⟩

theorem classify_fold_keys_mono {markers : List Str} {l : List LibdnsRecord}
    {init : RecMap} {k : Str} (h : k ∈ mkeys init) :
    k ∈ mkeys (l.foldl (classifyStep markers) init) := by
  induction l generalizing init with
  | nil => exact h
  | cons z l ih =>
    rw [List.foldl_cons]
    apply ih
    unfold classifyStep
    split
    · exact h
    · split
      · exact mem_mkeys_minsert.mpr (Or.inl h)
      · exact h

theorem classify_fold_keys_of_qual {markers : List Str} {l : List LibdnsRecord}
    {z : LibdnsRecord} (hz : z ∈ l) (hpre : ¬ strHasPrefix z.RR.name txtPrefix)
    (hcm : markers.contains z.RR.name) (init : RecMap) :
    keyOf z.RR.name z.RR.type ∈ mkeys (l.foldl (classifyStep markers) init) := by
  induction l generalizing init with
  | nil => cases hz
  | cons w l ih =>
    rw [List.foldl_cons]
    rcases List.mem_cons.mp hz with h1 | h2
    · subst h1
      apply classify_fold_keys_mono
      unfold classifyStep
      rw [if_neg hpre, if_pos hcm]
      exact mem_mkeys_minsert.mpr (Or.inr rfl)
    · exact ih h2 _

theorem classify_fold_nodup {markers : List Str} {l : List LibdnsRecord}
    {init : RecMap} (h : (mkeys init).Nodup) :
    (mkeys (l.foldl (classifyStep markers) init)).Nodup := by
  induction l generalizing init with
  | nil => exact h
  | cons z l ih =>
    rw [List.foldl_cons]
    apply ih
    unfold classifyStep
    split
    · exact h
    · split
      · exact mkeys_nodup_minsert h _ _
      · exact h

theorem parseOwned_entry {ownerID : Str} {records : List LibdnsRecord}
    {p : Str × Record} (hp : p ∈ parseOwnedRecords ownerID records) :
    ∃ z ∈ records, ¬ strHasPrefix z.RR.name txtPrefix ∧
      (markerNames ownerID records).contains z.RR.name ∧
      p = (keyOf z.RR.name z.RR.type, reconstructRec z) := by
  rcases classify_fold_entry p hp with h | h
  · cases h
  · exact h

theorem parseOwned_nodup (ownerID : Str) (records : List LibdnsRecord) :
    (mkeys (parseOwnedRecords ownerID records)).Nodup :=
  classify_fold_nodup List.nodup_nil

theorem markerNames_mem {oid : Str} {records : List LibdnsRecord} {n : Str} :
    n ∈ markerNames oid records ↔
      ∃ m ∈ records, m.RR.type = ['T', 'X', 'T'] ∧
        strHasPrefix m.RR.name txtPrefix ∧
        (m.RR.data = expectedMarkerValue oid ∨
          m.RR.data = '"' :: (expectedMarkerValue oid ++ ['"'])) ∧
        n = strTrimPrefix m.RR.name txtPrefix := by
  unfold markerNames
  rw [List.mem_filterMap]
  constructor
  · rintro ⟨m, hm, hf⟩
    split at hf
    · next hcond =>
      split at hf
      · next hpay =>
        injection hf with hf
        exact ⟨m, hm, hcond.1, hcond.2, hpay, hf.symm⟩
      · cases hf
    · cases hf
  · rintro ⟨m, hm, h1, h2, h3, h4⟩
    refine ⟨m, hm, ?_⟩
    rw [if_pos ⟨h1, h2⟩, if_pos h3, h4]

/-! ## String lemmas -/

theorem strHasPrefix_append_self (pre n : Str) :
    strHasPrefix (pre ++ n) pre = true := by
  unfold strHasPrefix
  rw [List.isPrefixOf_iff_prefix]
  exact List.prefix_append pre n

theorem strTrimPrefix_append_self (pre n : Str) :
    strTrimPrefix (pre ++ n) pre = n := by
  unfold strTrimPrefix
  rw [if_pos (List.isPrefixOf_iff_prefix.mpr (List.prefix_append pre n))]
  exact List.drop_left pre n

theorem marker_name_inj {n n' : Str} (h : txtPrefix ++ n = txtPrefix ++ n') :
    n = n' :=
  List.append_cancel_left h

theorem colon_mem_keyOf (n t : Str) : ':' ∈ keyOf n t := by
  unfold keyOf
  exact List.mem_append.mpr (Or.inr (List.mem_cons_self ':' t))

theorem keyOf_contains_colon (n t : Str) : (keyOf n t).contains ':' = true :=
  List.elem_eq_true_of_mem (colon_mem_keyOf n t)

theorem keyOf_inj {n t n' t' : Str} (hn : ':' ∉ n) (hn' : ':' ∉ n')
    (h : keyOf n t = keyOf n' t') : n = n' ∧ t = t' := by
  unfold keyOf at h
  rcases List.append_eq_append_iff.mp h with ⟨e, he1, he2⟩ | ⟨e, he1, he2⟩
  · cases e with
    | nil =>
      rw [List.append_nil] at he1
      rw [List.nil_append] at he2
      injection he2 with _ h2
      exact ⟨he1.symm, h2⟩
    | cons c e' =>
      injection he2 with h1 _
      subst h1
      have hmem : ':' ∈ n' := by
        rw [he1]
        exact List.mem_append.mpr (Or.inr (List.mem_cons_self _ _))
      exact absurd hmem hn'
  · cases e with
    | nil =>
      rw [List.append_nil] at he1
      rw [List.nil_append] at he2
      injection he2 with _ h2
      exact ⟨he1, h2.symm⟩
    | cons c e' =>
      injection he2 with h1 _
      subst h1
      have hmem : ':' ∈ n := by
        rw [he1]
        exact List.mem_append.mpr (Or.inr (List.mem_cons_self _ _))
      exact absurd hmem hn

theorem keyOf_prefix_clash {n t n' t' : Str}
    (h : keyOf n t = keyOf n' t') (hp : strHasPrefix n txtPrefix = true)
    (hp' : strHasPrefix n' txtPrefix = false) : False := by
  unfold keyOf at h
  unfold strHasPrefix at hp hp'
  rw [List.isPrefixOf_iff_prefix] at hp
  have hnp : ¬ (txtPrefix <+: n') := by
    intro hc
    rw [← List.isPrefixOf_iff_prefix, hp'] at hc
    cases hc
  rcases List.append_eq_append_iff.mp h with ⟨e, he1, he2⟩ | ⟨e, he1, he2⟩
  · exact hnp (by rw [he1]; exact hp.trans (List.prefix_append n e))
  · cases e with
    | nil =>
      rw [List.append_nil] at he1
      exact hnp (he1 ▸ hp)
    | cons c e' =>
      injection he2 with h1 _
      subst h1
      rw [he1] at hp
      rcases hp with ⟨s, hs⟩
      rcases List.append_eq_append_iff.mp hs with ⟨f, hf1, hf2⟩ | ⟨f, hf1, hf2⟩
      · exact hnp (by rw [hf1]; exact List.prefix_append _ _)
      · cases f with
        | nil =>
          rw [List.append_nil] at hf1
          exact hnp (hf1 ▸ List.prefix_rfl)
        | cons c2 f' =>
          injection hf2 with h3 _
          have hmem : ':' ∈ txtPrefix := by
            rw [hf1, ← h3]
            exact List.mem_append.mpr (Or.inr (List.mem_cons_self _ _))
          exact absurd hmem (by decide)

/-! ## Codec lemmas -/

theorem toLibdns_RR_name (r : Record) : (toLibdnsRecord r).RR.name = r.name := by
  unfold toLibdnsRecord
  split
  · cases hp : parseAddr r.value <;> simp [LibdnsRecord.RR]
  · split
    · simp [LibdnsRecord.RR]
    · split <;> simp [LibdnsRecord.RR]

theorem toLibdns_RR_ttl (r : Record) : (toLibdnsRecord r).RR.ttl = storedTTL r.ttl := by
  unfold toLibdnsRecord
  split
  · cases hp : parseAddr r.value <;> simp [LibdnsRecord.RR]
  · split
    · simp [LibdnsRecord.RR]
    · split <;> simp [LibdnsRecord.RR]

theorem dfltTTL_idem (x : Int) : dfltTTL (dfltTTL x) = dfltTTL x := by
  by_cases h : x = 0 <;> simp [dfltTTL, h]

theorem wrap64_small {x : Int} (h1 : -9223372036854775808 ≤ x)
    (h2 : x < 9223372036854775808) : wrap64 x = x := by
  unfold wrap64
  omega

theorem storedTTL_ok {t : Int} (h1 : -9223372036 ≤ t) (h2 : t ≤ 9223372036) :
    storedTTL t = dfltTTL t := by
  unfold storedTTL durTTL durSeconds dfltTTL
  rw [wrap64_small (by omega) (by omega)]
  by_cases h : t = 0
  · subst h
    rw [if_pos (by norm_num), if_pos rfl]
    decide
  · rw [if_neg (show ¬ t * 1000000000 = 0 by omega), if_neg h]
    exact Int.mul_tdiv_cancel t (by norm_num)

theorem dfltTTL_ttlOK {t : Int} (h1 : -9223372036 ≤ t) (h2 : t ≤ 9223372036) :
    (-9223372036 ≤ dfltTTL t ∧ dfltTTL t ≤ 9223372036) ∧ dfltTTL t ≠ 0 := by
  unfold dfltTTL
  by_cases h : t = 0 <;> simp [h] <;> omega

theorem storedTTL_idem {t : Int} (hok : ttlOK t) :
    storedTTL (storedTTL t) = storedTTL t := by
  rw [storedTTL_ok hok.1 hok.2]
  rcases dfltTTL_ttlOK hok.1 hok.2 with ⟨⟨ha, hb⟩, _⟩
  rw [storedTTL_ok ha hb, dfltTTL_idem]

theorem toLibdns_defRec {r : Record} (hok : ttlOK r.ttl) :
    toLibdnsRecord (defRec r) = toLibdnsRecord r := by
  unfold toLibdnsRecord defRec
  simp only [storedTTL_idem hok]

theorem reconstruct_toLibdns {r : Record} (h2 : (toLibdnsRecord r).RR.type = r.type)
    (h3 : extractValue (toLibdnsRecord r) = r.value) :
    reconstructRec (toLibdnsRecord r) = defRec r := by
  unfold reconstructRec defRec
  rw [toLibdns_RR_name, toLibdns_RR_ttl, h2, h3]

theorem makeTXTMarker_RR (oid n : Str) :
    (makeTXTMarker oid n).RR =
      ⟨txtPrefix ++ n, ['T', 'X', 'T'], 300, expectedMarkerValue oid⟩ := rfl

theorem name_ne_of_not_prefix {s x : Str} (h : ¬ strHasPrefix s txtPrefix = true) :
    s ≠ txtPrefix ++ x := by
  intro he
  rw [he] at h
  exact h (strHasPrefix_append_self txtPrefix x)

/-! ## Plan membership lemmas -/

theorem toDelete_mem {owned desired : RecMap} {k : Str} :
    k ∈ (computePlan owned desired).toDelete ↔
      k ∈ mkeys owned ∧ mfind desired k = none := by
  unfold computePlan
  simp only [List.mem_map, List.mem_filter]
  constructor
  · rintro ⟨p, ⟨hpm, hnone⟩, hk⟩
    subst hk
    exact ⟨List.mem_map.mpr ⟨p, hpm, rfl⟩, Option.isNone_iff_eq_none.mp hnone⟩
  · rintro ⟨hk, hnone⟩
    rcases List.mem_map.mp hk with ⟨p, hpm, hpk⟩
    exact ⟨p, ⟨hpm, by rw [hpk]; simp [hnone]⟩, hpk⟩

theorem toCreate_mem {owned desired : RecMap} {r : Record} :
    r ∈ (computePlan owned desired).toCreate ↔
      ∃ k, (k, r) ∈ desired ∧ mfind owned k = none := by
  unfold computePlan
  simp only [List.mem_map, List.mem_filter]
  constructor
  · rintro ⟨p, ⟨hpm, hnone⟩, hk⟩
    refine ⟨p.1, ?_, Option.isNone_iff_eq_none.mp hnone⟩
    rw [← hk]
    simpa using hpm
  · rintro ⟨k, hk, hnone⟩
    exact ⟨(k, r), ⟨hk, by simp [hnone]⟩, rfl⟩

theorem toUpdate_mem {owned desired : RecMap} {r : Record} :
    r ∈ (computePlan owned desired).toUpdate ↔
      ∃ k e, (k, r) ∈ desired ∧ mfind owned k = some e ∧
        (e.value ≠ r.value ∨ ((0 : Int) < r.ttl ∧ e.ttl ≠ r.ttl)) := by
  unfold computePlan
  rw [List.mem_filterMap]
  constructor
  · rintro ⟨p, hpm, hf⟩
    cases he : mfind owned p.1 with
    | none => rw [he] at hf; cases hf
    | some e =>
      rw [he] at hf
      split at hf
      · rename_i e' heq
        injection heq with heq
        subst heq
        split at hf
        · rename_i hcond2
          injection hf with hf
          subst hf
          exact ⟨p.1, e, by simpa using hpm, he, hcond2⟩
        · cases hf
      · cases hf
  · rintro ⟨k, e, hk, he, hcond⟩
    refine ⟨(k, r), hk, ?_⟩
    show (match mfind owned k with
      | some existingRec =>
        if existingRec.value ≠ r.value ∨ ((0 : Int) < r.ttl ∧ existingRec.ttl ≠ r.ttl)
        then some r else none
      | none => none) = some r
    rw [he]
    exact if_pos hcond

/-! ## Desired-index lemmas -/

theorem desired_fold_entry {l : List Record} {init : RecMap} :
    ∀ p ∈ l.foldl desiredStep init, p ∈ init ∨ ∃ r ∈ l, p = (recKey r, r) := by
  induction l generalizing init with
  | nil => exact fun p hp => Or.inl hp
  | cons r l ih =>
    intro p hp
    rw [List.foldl_cons] at hp
    rcases ih p hp with hinit | ⟨r', hr', h3⟩
    · unfold desiredStep at hinit
      rcases minsert_entry_sub hinit with h | h
      · exact Or.inl h
      · exact Or.inr ⟨r, List.mem_cons_self r l, h⟩
    · exact Or.inr ⟨r', List.mem_cons_of_mem r hr', h3⟩

theorem desired_fold_nodup {l : List Record} {init : RecMap}
    (h : (mkeys init).Nodup) : (mkeys (l.foldl desiredStep init)).Nodup := by
  induction l generalizing init with
  | nil => exact h
  | cons r l ih =>
    rw [List.foldl_cons]
    exact ih (mkeys_nodup_minsert h _ _)

theorem desired_fold_keys_mono {l : List Record} {init : RecMap} {k : Str}
    (h : k ∈ mkeys init) : k ∈ mkeys (l.foldl desiredStep init) := by
  induction l generalizing init with
  | nil => exact h
  | cons r l ih =>
    rw [List.foldl_cons]
    exact ih (mem_mkeys_minsert.mpr (Or.inl h))

theorem desired_fold_keys_of_mem {l : List Record} {r : Record} (hr : r ∈ l)
    (init : RecMap) : recKey r ∈ mkeys (l.foldl desiredStep init) := by
  induction l generalizing init with
  | nil => cases hr
  | cons w l ih =>
    rw [List.foldl_cons]
    rcases List.mem_cons.mp hr with h1 | h2
    · subst h1
      exact desired_fold_keys_mono (mem_mkeys_minsert.mpr (Or.inr rfl))
    · exact ih h2 _

theorem buildDesired_entry {D : List Record} {p : Str × Record}
    (hp : p ∈ buildDesired D) : ∃ r ∈ D, p = (recKey r, r) := by
  rcases desired_fold_entry p hp with h | h
  · cases h
  · exact h

theorem buildDesired_nodup (D : List Record) : (mkeys (buildDesired D)).Nodup :=
  desired_fold_nodup List.nodup_nil

theorem mfind_buildDesired_key {D : List Record} {k : Str} {r : Record}
    (h : mfind (buildDesired D) k = some r) : k = recKey r ∧ r ∈ D := by
  rcases buildDesired_entry (mfind_mem h) with ⟨r', hr', he⟩
  injection he with he1 he2
  subst he2
  exact ⟨he1, hr'⟩

theorem mem_keys_buildDesired {D : List Record} {r : Record} (hr : r ∈ D) :
    recKey r ∈ mkeys (buildDesired D) :=
  desired_fold_keys_of_mem hr []

theorem append_trim_of_prefix {s pre : Str} (h : strHasPrefix s pre = true) :
    s = pre ++ strTrimPrefix s pre := by
  unfold strHasPrefix at h
  unfold strTrimPrefix
  rw [if_pos h]
  rcases List.isPrefixOf_iff_prefix.mp h with ⟨t, ht⟩
  rw [← ht, List.drop_left]

/-! ## Claim theorems -/

/-- C9: for every record name and ownerID the constructed ownership marker is
bit-exact: its name is `"_cdr." + recordName`, its type is TXT, its text
payload is `"owner=" + ownerID + ",heritage=caddy-dns-register"`, and its TTL
is 300 seconds. -/
theorem marker_wire_format (ownerID name : Str) :
    (makeTXTMarker ownerID name).RR.name = "_cdr.".data ++ name ∧
    (makeTXTMarker ownerID name).RR.type = "TXT".data ∧
    (makeTXTMarker ownerID name).RR.data =
      "owner=".data ++ ownerID ++ ",heritage=caddy-dns-register".data ∧
    (makeTXTMarker ownerID name).RR.ttl = 300 := by
  refine ⟨rfl, rfl, ?_, rfl⟩
  show "owner=".data ++ ownerID ++ ",heritage=".data ++ txtHeritage =
    "owner=".data ++ ownerID ++ ",heritage=caddy-dns-register".data
  rw [List.append_assoc ("owner=".data ++ ownerID)]
  congr 1

/-- C1 as frozen is refuted at a negative declared TTL: the key is present in
both indexes, the values agree, the declared TTL (-5) is non-zero and differs
from the owned TTL (300), yet `toUpdate` is empty (the code requires a
positive TTL, not merely non-zero). -/
theorem diff_ttl_nonzero_refuted :
    ((-5 : Int) ≠ 0) ∧ ((-5 : Int) ≠ 300) ∧
    (mfind [("w:A".data, ⟨"w".data, "A".data, "v".data, 300⟩)] "w:A".data =
      some ⟨"w".data, "A".data, "v".data, 300⟩) ∧
    (mfind (buildDesired [⟨"w".data, "A".data, "v".data, -5⟩]) "w:A".data =
      some ⟨"w".data, "A".data, "v".data, -5⟩) ∧
    (computePlan [("w:A".data, ⟨"w".data, "A".data, "v".data, 300⟩)]
      (buildDesired [⟨"w".data, "A".data, "v".data, -5⟩])).toUpdate = [] := by
  decide

/-- C1 (amended: a TTL difference triggers an update only when the declared
TTL is positive, not merely non-zero): for every owned index and declared
sequence, `toDelete` is exactly the owned keys absent from the declared index,
`toCreate` exactly the declared records whose key is not owned, and `toUpdate`
exactly the declared records present in both whose value differs or whose
positive TTL differs from the owned one. -/
theorem diff_characterization (owned : RecMap) (D : List Record) :
    (∀ k, k ∈ (computePlan owned (buildDesired D)).toDelete ↔
      k ∈ mkeys owned ∧ k ∉ mkeys (buildDesired D)) ∧
    (∀ r, r ∈ (computePlan owned (buildDesired D)).toCreate ↔
      mfind (buildDesired D) (recKey r) = some r ∧ recKey r ∉ mkeys owned) ∧
    (∀ r, r ∈ (computePlan owned (buildDesired D)).toUpdate ↔
      mfind (buildDesired D) (recKey r) = some r ∧
      ∃ e, mfind owned (recKey r) = some e ∧
        (e.value ≠ r.value ∨ ((0 : Int) < r.ttl ∧ e.ttl ≠ r.ttl))) := by
  refine ⟨?_, ?_, ?_⟩
  · intro k
    rw [toDelete_mem, mfind_eq_none]
  · intro r
    rw [toCreate_mem]
    constructor
    · rintro ⟨k, hk, hnone⟩
      have hsh := buildDesired_entry hk
      rcases hsh with ⟨r', hr', he⟩
      injection he with he1 he2
      subst he2
      subst he1
      exact ⟨mfind_of_mem (buildDesired_nodup D) hk, mfind_eq_none.mp hnone⟩
    · rintro ⟨hfind, hnk⟩
      exact ⟨recKey r, mfind_mem hfind, mfind_eq_none.mpr hnk⟩
  · intro r
    rw [toUpdate_mem]
    constructor
    · rintro ⟨k, e, hk, he, hcond⟩
      rcases buildDesired_entry hk with ⟨r', hr', hpe⟩
      injection hpe with he1 he2
      subst he2
      subst he1
      exact ⟨mfind_of_mem (buildDesired_nodup D) hk, e, he, hcond⟩
    · rintro ⟨hfind, e, he, hcond⟩
      exact ⟨recKey r, e, mfind_mem hfind, he, hcond⟩

/-- Witness for `diff_characterization` at a concrete instance: an undeclared
owned key is planned for deletion. -/
theorem diff_characterization_witness :
    "w:A".data ∈ (computePlan [("w:A".data, ⟨"w".data, "A".data, "v".data, 300⟩)]
      (buildDesired [])).toDelete :=
  ((diff_characterization [("w:A".data, ⟨"w".data, "A".data, "v".data, 300⟩)] []).1
    "w:A".data).mpr ⟨by decide, by decide⟩

/-- C10: no entry of the owned index has a name beginning with the marker
prefix `"_cdr."`, and a declared record whose name does begin with `"_cdr."`
lands in `toCreate` on every pass (so it can never reach the no-op state). -/
theorem marker_namespace_never_owned (ownerID : Str) (records : List LibdnsRecord)
    (D : List Record) (r : Record) :
    (∀ p ∈ parseOwnedRecords ownerID records,
      ¬ strHasPrefix p.2.name txtPrefix = true) ∧
    (strHasPrefix r.name txtPrefix = true →
      mfind (buildDesired D) (recKey r) = some r →
      r ∈ (planOf ownerID records D).toCreate) := by
  constructor
  · intro p hp
    rcases parseOwned_entry hp with ⟨z, _, hpre, _, he⟩
    rw [he]
    exact hpre
  · intro hpre hfind
    unfold planOf
    rw [toCreate_mem]
    refine ⟨recKey r, mfind_mem hfind, ?_⟩
    rw [mfind_eq_none]
    intro hk
    rcases List.mem_map.mp hk with ⟨p, hpm, hpk⟩
    rcases parseOwned_entry hpm with ⟨z, _, hzpre, _, he⟩
    have hkeq : keyOf r.name r.type = keyOf z.RR.name z.RR.type := by
      have hp1 : p.1 = keyOf z.RR.name z.RR.type := by rw [he]
      rw [← hp1, hpk]
      rfl
    exact keyOf_prefix_clash hkeq hpre (Bool.eq_false_iff.mpr hzpre)

/-- Witness for `marker_namespace_never_owned`: a declared record named
`_cdr.x` is planned for creation even though the zone already contains it
(with a matching marker). -/
theorem marker_namespace_never_owned_witness :
    (⟨"_cdr.x".data, "TXT".data, "v".data, 300⟩ : Record) ∈
      (planOf "X".data
        [LibdnsRecord.txt "_cdr.x".data "v".data 300,
         LibdnsRecord.txt "_cdr._cdr.x".data (expectedMarkerValue "X".data) 300]
        [⟨"_cdr.x".data, "TXT".data, "v".data, 300⟩]).toCreate :=
  (marker_namespace_never_owned "X".data
    [LibdnsRecord.txt "_cdr.x".data "v".data 300,
     LibdnsRecord.txt "_cdr._cdr.x".data (expectedMarkerValue "X".data) 300]
    [⟨"_cdr.x".data, "TXT".data, "v".data, 300⟩]
    ⟨"_cdr.x".data, "TXT".data, "v".data, 300⟩).2 (by decide) (by decide)

/-- C3: a record whose marker-shaped TXT records all carry a payload other
than this instance's expected one (bare or quoted) never contributes an entry
of its name to the owned index, regardless of its content. -/
theorem foreign_owner_isolation (ownerID : Str) (records : List LibdnsRecord)
    (z : LibdnsRecord) (hz : z ∈ records)
    (h : ∀ m ∈ records, m.RR.type = ['T', 'X', 'T'] →
      m.RR.name = txtPrefix ++ z.RR.name →
      m.RR.data ≠ expectedMarkerValue ownerID ∧
      m.RR.data ≠ '"' :: (expectedMarkerValue ownerID ++ ['"'])) :
    ∀ p ∈ parseOwnedRecords ownerID records, p.2.name ≠ z.RR.name := by
  intro p hp he
  rcases parseOwned_entry hp with ⟨z', _, _, hcm, hep⟩
  have hname : z'.RR.name = z.RR.name := by
    rw [hep] at he
    exact he
  have hclaimed : z'.RR.name ∈ markerNames ownerID records :=
    List.mem_of_elem_eq_true hcm
  rcases markerNames_mem.mp hclaimed with ⟨m, hm, hty, hpre2, hpay, htrim⟩
  have hmn : m.RR.name = txtPrefix ++ z.RR.name := by
    rw [← hname, htrim]
    exact append_trim_of_prefix hpre2
  rcases h m hm hty hmn with ⟨hne1, hne2⟩
  rcases hpay with hp1 | hp1
  · exact hne1 hp1
  · exact hne2 hp1

/-- Witness for `foreign_owner_isolation`: in a zone where `w` carries only
another owner's marker and `v` carries ours, the one owned entry is not `w`. -/
theorem foreign_owner_isolation_witness : "v".data ≠ "w".data :=
  foreign_owner_isolation "X".data
    [LibdnsRecord.rr "w".data "A".data 300 "1.2.3.4".data,
     LibdnsRecord.txt "_cdr.w".data (expectedMarkerValue "Y".data) 300,
     LibdnsRecord.rr "v".data "TXT".data 300 "t".data,
     LibdnsRecord.txt "_cdr.v".data (expectedMarkerValue "X".data) 300]
    (LibdnsRecord.rr "w".data "A".data 300 "1.2.3.4".data)
    (by decide) (by decide)
    ("v:TXT".data, ⟨"v".data, "TXT".data, "t".data, 300⟩)
    (by decide)

/-- C2: a snapshot record with no valid ownership marker for its name is
absent from the owned index (no entry carries its name and type), is never a
delete target, and — when its identity is absent from the declared
configuration — no record of its identity is in `toCreate` or `toUpdate`. -/
theorem unmarked_record_invisible (ownerID : Str) (records : List LibdnsRecord)
    (D : List Record) (z : LibdnsRecord) (_hz : z ∈ records)
    (hnm : z.RR.name ∉ markerNames ownerID records) :
    (∀ p ∈ parseOwnedRecords ownerID records,
      ¬ (p.2.name = z.RR.name ∧ p.2.type = z.RR.type)) ∧
    (∀ r ∈ (planOf ownerID records D).toDelete.filterMap
        (mfind (parseOwnedRecords ownerID records)),
      ¬ (r.name = z.RR.name ∧ r.type = z.RR.type)) ∧
    ((∀ r ∈ D, ¬ (r.name = z.RR.name ∧ r.type = z.RR.type)) →
      ∀ r ∈ (planOf ownerID records D).toCreate ++
          (planOf ownerID records D).toUpdate,
        ¬ (r.name = z.RR.name ∧ r.type = z.RR.type)) := by
  have part1 : ∀ p ∈ parseOwnedRecords ownerID records,
      ¬ (p.2.name = z.RR.name ∧ p.2.type = z.RR.type) := by
    rintro p hp ⟨h1, _⟩
    rcases parseOwned_entry hp with ⟨z', _, _, hcm, hep⟩
    have : z'.RR.name = z.RR.name := by rw [hep] at h1; exact h1
    exact hnm (this ▸ List.mem_of_elem_eq_true hcm)
  refine ⟨part1, ?_, ?_⟩
  · intro r hr
    rcases List.mem_filterMap.mp hr with ⟨k, _, hfind⟩
    exact part1 (k, r) (mfind_mem hfind)
  · intro hD r hr
    rcases List.mem_append.mp hr with h | h
    · rcases toCreate_mem.mp h with ⟨k, hk, _⟩
      rcases buildDesired_entry hk with ⟨r', hr', he⟩
      injection he with _ he2
      subst he2
      exact hD _ hr'
    · rcases toUpdate_mem.mp h with ⟨k, e, hk, _, _⟩
      rcases buildDesired_entry hk with ⟨r', hr', he⟩
      injection he with _ he2
      subst he2
      exact hD _ hr'

/-- Witness for `unmarked_record_invisible`: a manually created record with
no marker, next to an owned record, is not the owned entry. -/
theorem unmarked_record_invisible_witness :
    ¬ ("v".data = "manual".data ∧ "TXT".data = "A".data) :=
  (unmarked_record_invisible "X".data
    [LibdnsRecord.rr "manual".data "A".data 300 "10.0.0.1".data,
     LibdnsRecord.rr "v".data "TXT".data 300 "t".data,
     LibdnsRecord.txt "_cdr.v".data (expectedMarkerValue "X".data) 300]
    []
    (LibdnsRecord.rr "manual".data "A".data 300 "10.0.0.1".data)
    (by decide) (by decide)).1
    ("v:TXT".data, ⟨"v".data, "TXT".data, "t".data, 300⟩)
    (by decide)

/-- C4: one valid marker for a target name claims every non-marker record at
that name, of every type; consequently an owned-name record of an undeclared
type enters `toDelete`. -/
theorem marker_claims_all_types (ownerID : Str) (records : List LibdnsRecord)
    (D : List Record) (m z : LibdnsRecord) (hm : m ∈ records)
    (hmty : m.RR.type = ['T', 'X', 'T'])
    (hmname : m.RR.name = txtPrefix ++ z.RR.name)
    (hmdata : m.RR.data = expectedMarkerValue ownerID ∨
      m.RR.data = '"' :: (expectedMarkerValue ownerID ++ ['"']))
    (hz : z ∈ records) (hzpre : ¬ strHasPrefix z.RR.name txtPrefix = true) :
    keyOf z.RR.name z.RR.type ∈ mkeys (parseOwnedRecords ownerID records) ∧
    (keyOf z.RR.name z.RR.type ∉ mkeys (buildDesired D) →
      keyOf z.RR.name z.RR.type ∈ (planOf ownerID records D).toDelete) := by
  have hclaimed : z.RR.name ∈ markerNames ownerID records := by
    rw [markerNames_mem]
    refine ⟨m, hm, hmty, ?_, hmdata, ?_⟩
    · rw [hmname]
      exact strHasPrefix_append_self txtPrefix z.RR.name
    · rw [hmname, strTrimPrefix_append_self]
  have hkey : keyOf z.RR.name z.RR.type ∈ mkeys (parseOwnedRecords ownerID records) :=
    classify_fold_keys_of_qual hz hzpre (List.elem_eq_true_of_mem hclaimed) []
  exact ⟨hkey, fun hnd => toDelete_mem.mpr ⟨hkey, mfind_eq_none.mpr hnd⟩⟩

/-- Witness for `marker_claims_all_types`: a marker for `www` also claims the
manually created TXT record at `www`, which is then planned for deletion. -/
theorem marker_claims_all_types_witness :
    keyOf "www".data "TXT".data ∈ mkeys (parseOwnedRecords "X".data
      [LibdnsRecord.txt "_cdr.www".data (expectedMarkerValue "X".data) 300,
       LibdnsRecord.address "www".data (IPAddr.v4 192 0 2 1) 300,
       LibdnsRecord.txt "www".data "manual".data 300]) ∧
    keyOf "www".data "TXT".data ∈ (planOf "X".data
      [LibdnsRecord.txt "_cdr.www".data (expectedMarkerValue "X".data) 300,
       LibdnsRecord.address "www".data (IPAddr.v4 192 0 2 1) 300,
       LibdnsRecord.txt "www".data "manual".data 300]
      [⟨"www".data, "A".data, "192.0.2.1".data, 300⟩]).toDelete := by
  have h := marker_claims_all_types "X".data
    [LibdnsRecord.txt "_cdr.www".data (expectedMarkerValue "X".data) 300,
     LibdnsRecord.address "www".data (IPAddr.v4 192 0 2 1) 300,
     LibdnsRecord.txt "www".data "manual".data 300]
    [⟨"www".data, "A".data, "192.0.2.1".data, 300⟩]
    (LibdnsRecord.txt "_cdr.www".data (expectedMarkerValue "X".data) 300)
    (LibdnsRecord.txt "www".data "manual".data 300)
    (by decide) (by decide) (by decide) (Or.inl (by decide)) (by decide) (by decide)
  exact ⟨h.1, h.2 (by decide)⟩

/-! ## Decimal digit lemmas (for the IPv4 part of the codec round trip) -/

theorem digitChar_digitVal {c : Char} (h : isDigitCh c = true) :
    digitChar (digitVal c) = c := by
  unfold isDigitCh at h
  unfold digitChar digitVal
  rw [Nat.add_sub_cancel' ?_]
  · exact Char.ofNat_toNat c
  · have := (Bool.and_eq_true _ _).mp h
    exact Nat.le_of_ble_eq_true (by simpa using this.1)

theorem digitVal_lt_ten {c : Char} (h : isDigitCh c = true) : digitVal c < 10 := by
  unfold isDigitCh at h
  have h2 := (Bool.and_eq_true _ _).mp h
  unfold digitVal
  have hle : c.toNat ≤ 57 := by simpa using h2.2
  have hge : 48 ≤ c.toNat := by simpa using h2.1
  omega

theorem digitVal_pos {c : Char} (h : isDigitCh c = true) (hz : c ≠ '0') :
    1 ≤ digitVal c := by
  unfold isDigitCh at h
  have h2 := (Bool.and_eq_true _ _).mp h
  have hge : 48 ≤ c.toNat := by simpa using h2.1
  have : c.toNat ≠ 48 := by
    intro he
    apply hz
    have : Char.ofNat c.toNat = Char.ofNat 48 := by rw [he]
    rwa [Char.ofNat_toNat] at this
  unfold digitVal
  omega

theorem natToDecAux_small {fuel v : Nat} (hf : 1 ≤ fuel) (h : v < 10) :
    natToDecAux fuel v = [digitChar v] := by
  cases fuel with
  | zero => omega
  | succ f =>
    unfold natToDecAux
    rw [if_pos h]

theorem natToDecAux_two {fuel v : Nat} (hf : 2 ≤ fuel) (h1 : 10 ≤ v) (h2 : v < 100) :
    natToDecAux fuel v = [digitChar (v / 10), digitChar (v % 10)] := by
  cases fuel with
  | zero => omega
  | succ f =>
    unfold natToDecAux
    rw [if_neg (by omega), natToDecAux_small (by omega) (by omega)]
    rfl

theorem natToDec_one_digit {v : Nat} (h : v < 10) : natToDec v = [digitChar v] :=
  natToDecAux_small (by omega) h

theorem natToDec_two_digits {v : Nat} (h1 : 10 ≤ v) (h2 : v < 100) :
    natToDec v = [digitChar (v / 10), digitChar (v % 10)] :=
  natToDecAux_two (by omega) h1 h2

theorem natToDec_three_digits {v : Nat} (h1 : 100 ≤ v) (h2 : v < 1000) :
    natToDec v = [digitChar (v / 100), digitChar (v / 10 % 10), digitChar (v % 10)] := by
  unfold natToDec natToDecAux
  rw [if_neg (by omega), natToDecAux_two (by omega) (by omega) (by omega)]
  have h3 : v / 10 / 10 = v / 100 := by omega
  rw [h3]
  rfl

theorem decValue_cons (c : Char) (cs : Str) :
    decValue (c :: cs) = digitVal c * 10 ^ cs.length + decValue cs := by
  unfold decValue
  rw [List.foldl_cons]
  have haux : ∀ (l : Str) (a : Nat),
      l.foldl (fun a c => a * 10 + digitVal c) a =
        a * 10 ^ l.length + l.foldl (fun a c => a * 10 + digitVal c) 0 := by
    intro l
    induction l with
    | nil => intro a; simp
    | cons x xs ih =>
      intro a
      rw [List.foldl_cons, List.foldl_cons, ih (a * 10 + digitVal x),
        ih (0 * 10 + digitVal x)]
      simp only [List.length_cons, Nat.pow_succ, Nat.zero_mul, Nat.zero_add]
      ring
  rw [haux cs (0 * 10 + digitVal c), Nat.zero_mul, Nat.zero_add]

theorem parseOctet_inv {c : Char} {cs : Str} {v : Nat}
    (h : parseOctet (c :: cs) = some v) :
    (c :: cs).all isDigitCh = true ∧ (c = '0' → cs = []) ∧
      decValue (c :: cs) = v ∧ v ≤ 255 := by
  have h' : (if !(c :: cs).all isDigitCh then none
      else if decide (c = '0') && !cs.isEmpty then none
      else if decValue (c :: cs) > 255 then none
      else some (decValue (c :: cs))) = some v := h
  split at h'
  · cases h'
  · next hdig =>
    split at h'
    · cases h'
    · next hlead =>
      split at h'
      · cases h'
      · next hle =>
        injection h' with h'
        refine ⟨by simpa using hdig, ?_, h', by omega⟩
        intro hc
        by_contra hne
        apply hlead
        rw [decide_eq_true hc, Bool.true_and, Bool.not_eq_true']
        cases cs with
        | nil => exact absurd rfl hne
        | cons x xs => rfl

theorem parseOctet_roundtrip {f : Str} {v : Nat} (h : parseOctet f = some v) :
    natToDec v = f := by
  cases f with
  | nil => cases h
  | cons c cs =>
    obtain ⟨hall, hlead, hdec, hle⟩ := parseOctet_inv h
    cases cs with
    | nil =>
      have hc : isDigitCh c = true := by simpa using hall
      have hv : v = digitVal c := by
        rw [← hdec, decValue_cons]
        simp [decValue]
      rw [hv, natToDec_one_digit (digitVal_lt_ten hc), digitChar_digitVal hc]
    | cons c2 cs2 =>
      have hcz : c ≠ '0' := by
        intro he
        cases hlead he
      have hc : isDigitCh c = true := by
        have := hall
        simp [List.all_cons] at this
        exact this.1
      have hpos : 1 ≤ digitVal c := digitVal_pos hc hcz
      cases cs2 with
      | nil =>
        have hc2 : isDigitCh c2 = true := by
          have := hall
          simp [List.all_cons] at this
          exact this.2
        have hv : v = digitVal c * 10 + digitVal c2 := by
          rw [← hdec, decValue_cons, decValue_cons]
          simp [decValue]
        have h1 := digitVal_lt_ten hc
        have h2 := digitVal_lt_ten hc2
        have hdiv : v / 10 = digitVal c := by omega
        have hmod : v % 10 = digitVal c2 := by omega
        rw [natToDec_two_digits (by omega) (by omega), hdiv, hmod,
          digitChar_digitVal hc, digitChar_digitVal hc2]
      | cons c3 cs3 =>
        cases cs3 with
        | nil =>
          have hc2 : isDigitCh c2 = true := by
            have := hall
            simp [List.all_cons] at this
            exact this.2.1
          have hc3 : isDigitCh c3 = true := by
            have := hall
            simp [List.all_cons] at this
            exact this.2.2
          have hv : v = digitVal c * 100 + digitVal c2 * 10 + digitVal c3 := by
            rw [← hdec, decValue_cons, decValue_cons, decValue_cons]
            simp [decValue]
            ring
          have h1 := digitVal_lt_ten hc
          have h2 := digitVal_lt_ten hc2
          have h3 := digitVal_lt_ten hc3
          have hdiv : v / 100 = digitVal c := by omega
          have hdiv2 : v / 10 % 10 = digitVal c2 := by omega
          have hmod : v % 10 = digitVal c3 := by omega
          rw [natToDec_three_digits (by omega) (by omega), hdiv, hdiv2, hmod,
            digitChar_digitVal hc, digitChar_digitVal hc2, digitChar_digitVal hc3]
        | cons c4 cs4 =>
          exfalso
          have hbig : 1000 ≤ decValue (c :: c2 :: c3 :: c4 :: cs4) := by
            rw [decValue_cons]
            have hlen : (c2 :: c3 :: c4 :: cs4).length = 3 + cs4.length := by
              simp [List.length_cons]
              omega
            rw [hlen]
            have hpow : 1000 ≤ 10 ^ (3 + cs4.length) := by
              calc 1000 = 10 ^ 3 := by norm_num
              _ ≤ 10 ^ (3 + cs4.length) := Nat.pow_le_pow_right (by omega) (by omega)
            have := Nat.mul_le_mul hpos hpow
            omega
          omega

/-- Join with a separator character: left inverse of `splitOnChar`. -/
def joinChar (c : Char) : List Str → Str
  | [] => []
  | [x] => x
  | x :: xs => x ++ c :: joinChar c xs

theorem splitOnChar_ne_nil (c : Char) (s : Str) : splitOnChar c s ≠ [] := by
  cases s with
  | nil => simp [splitOnChar]
  | cons x xs =>
    unfold splitOnChar
    by_cases hx : x = c
    · rw [if_pos hx]
      simp
    · rw [if_neg hx]
      cases hr : splitOnChar c xs <;> simp

theorem joinChar_splitOnChar (c : Char) (s : Str) :
    joinChar c (splitOnChar c s) = s := by
  induction s with
  | nil => rfl
  | cons x xs ih =>
    unfold splitOnChar
    by_cases hx : x = c
    · rw [if_pos hx]
      cases hr : splitOnChar c xs with
      | nil => exact absurd hr (splitOnChar_ne_nil c xs)
      | cons y ys =>
        rw [hr] at ih
        show [] ++ c :: joinChar c (y :: ys) = x :: xs
        rw [List.nil_append, hx, ih]
    · rw [if_neg hx]
      cases hr : splitOnChar c xs with
      | nil => exact absurd hr (splitOnChar_ne_nil c xs)
      | cons y ys =>
        rw [hr] at ih
        cases ys with
        | nil =>
          show x :: y = x :: xs
          rw [show joinChar c [y] = y from rfl] at ih
          rw [ih]
        | cons y2 ys2 =>
          show (x :: y) ++ c :: joinChar c (y2 :: ys2) = x :: xs
          rw [List.cons_append]
          rw [show y ++ c :: joinChar c (y2 :: ys2) = joinChar c (y :: y2 :: ys2) from rfl, ih]

theorem parseIPv4_inv {s : Str} {ip : IPAddr} (h : parseIPv4 s = some ip) :
    ∃ f1 f2 f3 f4 a b c d, splitOnChar '.' s = [f1, f2, f3, f4] ∧
      parseOctet f1 = some a ∧ parseOctet f2 = some b ∧
      parseOctet f3 = some c ∧ parseOctet f4 = some d ∧
      ip = IPAddr.v4 a b c d := by
  unfold parseIPv4 at h
  split at h
  · next f1 f2 f3 f4 heq =>
    split at h
    · next a b c d h1 h2 h3 h4 =>
      injection h with h
      exact ⟨f1, f2, f3, f4, a, b, c, d, heq, h1, h2, h3, h4, h.symm⟩
    · cases h
  · cases h

theorem parseIPv4_roundtrip {s : Str} {a b c d : Nat}
    (h : parseIPv4 s = some (IPAddr.v4 a b c d)) : formatV4g a b c d = s := by
  rcases parseIPv4_inv h with
    ⟨f1, f2, f3, f4, a', b', c', d', hsplit, h1, h2, h3, h4, hip⟩
  injection hip with e1 e2 e3 e4
  subst e1; subst e2; subst e3; subst e4
  have hs := joinChar_splitOnChar '.' s
  rw [hsplit] at hs
  rw [← hs]
  show natToDec a ++ '.' :: natToDec b ++ '.' :: natToDec c ++ '.' :: natToDec d =
    f1 ++ '.' :: joinChar '.' [f2, f3, f4]
  rw [parseOctet_roundtrip h1, parseOctet_roundtrip h2,
    parseOctet_roundtrip h3, parseOctet_roundtrip h4]
  show f1 ++ '.' :: f2 ++ '.' :: f3 ++ '.' :: f4 =
    f1 ++ '.' :: (f2 ++ '.' :: (f3 ++ '.' :: f4))
  simp [List.append_assoc]

theorem parseAddr_of_parseIPv4 {s : Str} {ip : IPAddr} (h : parseIPv4 s = some ip) :
    parseAddr s = some ip := by
  rcases parseIPv4_inv h with
    ⟨f1, f2, f3, f4, a, b, c, d, hsplit, h1, h2, h3, h4, hip⟩
  have hs := joinChar_splitOnChar '.' s
  rw [hsplit] at hs
  have hall : ∀ f (x : Nat), parseOctet f = some x → f.all isDigitCh = true := by
    intro f x hf
    cases f with
    | nil => cases hf
    | cons u us => exact (parseOctet_inv hf).1
  have hchars : ∀ x ∈ s, isDigitCh x = true ∨ x = '.' := by
    intro x hx
    rw [← hs] at hx
    have expand : joinChar '.' [f1, f2, f3, f4] =
        f1 ++ '.' :: (f2 ++ '.' :: (f3 ++ '.' :: f4)) := rfl
    rw [expand] at hx
    simp only [List.mem_append, List.mem_cons] at hx
    rcases hx with hx | hx | hx | hx | hx | hx | hx
    · exact Or.inl (List.all_eq_true.mp (hall f1 a h1) x hx)
    · exact Or.inr hx
    · exact Or.inl (List.all_eq_true.mp (hall f2 b h2) x hx)
    · exact Or.inr hx
    · exact Or.inl (List.all_eq_true.mp (hall f3 c h3) x hx)
    · exact Or.inr hx
    · exact Or.inl (List.all_eq_true.mp (hall f4 d h4) x hx)
  cases hfind : s.find? (fun c => c = '.' || c = ':' || c = '%') with
  | none =>
    exfalso
    have hdot : '.' ∈ s := by
      rw [← hs]
      have expand : joinChar '.' [f1, f2, f3, f4] =
          f1 ++ '.' :: (f2 ++ '.' :: (f3 ++ '.' :: f4)) := rfl
      rw [expand]
      exact List.mem_append.mpr (Or.inr (List.mem_cons_self _ _))
    have := List.find?_eq_none.mp hfind '.' hdot
    simp at this
  | some x =>
    have hpx := List.find?_some hfind
    have hmx := List.mem_of_find?_eq_some hfind
    have hxdot : x = '.' := by
      rcases hchars x hmx with hd | hd
      · exfalso
        have hx3 : x = '.' ∨ x = ':' ∨ x = '%' := by simpa [or_assoc] using hpx
        rcases hx3 with h3 | h3 | h3 <;> (subst h3; exact absurd hd (by decide))
      · exact hd
    subst hxdot
    unfold parseAddr
    rw [hfind]
    exact h

/-- C6 as frozen is refuted for AAAA: `0:0:0:0:0:0:0:1` is a syntactically
valid IPv6 value (the parser accepts it), but the codec image renders it
canonically as `::1`, so `extractValue (toProviderRecord r)` differs from
`r.value`. -/
theorem codec_roundtrip_refuted :
    (parseAddr "0:0:0:0:0:0:0:1".data).isSome = true ∧
    extractValue (toLibdnsRecord
        ⟨"w".data, "AAAA".data, "0:0:0:0:0:0:0:1".data, 300⟩) =
      "::1".data ∧
    "::1".data ≠ "0:0:0:0:0:0:0:1".data := by
  refine ⟨by decide, by decide, by decide⟩

/-- C6 (amended: the round trip holds unconditionally for CNAME and TXT
values and for dotted-quad IPv4 values; for values the IP parser accepts the
codec returns the canonical rendering of the parsed address, so the round
trip holds exactly for canonically rendered addresses). -/
theorem codec_roundtrip (r : Record) :
    ((r.type = "CNAME".data ∨ r.type = "TXT".data) →
      extractValue (toLibdnsRecord r) = r.value) ∧
    ((r.type = "A".data ∨ r.type = "AAAA".data) →
      (∀ ip, parseIPv4 r.value = some ip →
        extractValue (toLibdnsRecord r) = r.value) ∧
      (∀ ip, parseAddr r.value = some ip →
        extractValue (toLibdnsRecord r) = formatAddr ip)) := by
  constructor
  · intro h
    rcases h with h | h
    · have hc1 : ¬ (r.type = ['A'] ∨ r.type = ['A', 'A', 'A', 'A']) := by
        rw [h]; decide
      have hc2 : ¬ r.type = ['T', 'X', 'T'] := by rw [h]; decide
      unfold toLibdnsRecord
      rw [if_neg hc1, if_neg hc2, if_pos h]
      rfl
    · have hc1 : ¬ (r.type = ['A'] ∨ r.type = ['A', 'A', 'A', 'A']) := by
        rw [h]; decide
      unfold toLibdnsRecord
      rw [if_neg hc1, if_pos (show r.type = ['T', 'X', 'T'] from h)]
      rfl
  · intro h
    have hcanon : ∀ ip, parseAddr r.value = some ip →
        extractValue (toLibdnsRecord r) = formatAddr ip := by
      intro ip hip
      unfold toLibdnsRecord
      rw [if_pos h, hip]
      rfl
    refine ⟨?_, hcanon⟩
    intro ip hip
    have hdisp := parseAddr_of_parseIPv4 hip
    rcases parseIPv4_inv hip with ⟨_, _, _, _, a, b, c, d, _, _, _, _, _, hv4⟩
    rw [hcanon ip hdisp, hv4]
    exact parseIPv4_roundtrip (hv4 ▸ hip)

/-- Witness for `codec_roundtrip`: the A record value `192.0.2.1` survives
the codec round trip. -/
theorem codec_roundtrip_witness :
    extractValue (toLibdnsRecord ⟨"www".data, "A".data, "192.0.2.1".data, 300⟩) =
      "192.0.2.1".data :=
  ((codec_roundtrip ⟨"www".data, "A".data, "192.0.2.1".data, 300⟩).2
    (Or.inl rfl)).1 (IPAddr.v4 192 0 2 1) (by decide)

/-! ## Trace lemmas for the apply phases -/

theorem runDeletes_trace (oid : Str) (p : Provider) (owned : RecMap)
    (keys : List Str) (st : List Event × Zone)
    (hk : ∀ k ∈ keys, k.contains ':' = true ∧ (mfind owned k).isSome = true) :
    ∃ evs, (runDeletes oid p owned keys st).1 = st.1 ++ evs ∧
      evs.length = keys.length ∧ ∀ e ∈ evs, isDeleteOutcome e = true := by
  induction keys generalizing st with
  | nil => exact ⟨[], by simp [runDeletes], rfl, by simp⟩
  | cons k ks ih =>
    have hk1 := hk k (List.mem_cons_self k ks)
    obtain ⟨ev, hev1, hev3⟩ : ∃ ev, (deleteStep oid p owned st k).1 = st.1 ++ [ev] ∧
        isDeleteOutcome ev = true := by
      unfold deleteStep
      rw [if_neg (by rw [hk1.1]; simp)]
      cases hm : mfind owned k with
      | none =>
        rw [hm] at hk1
        exact absurd hk1.2 (by simp)
      | some rec =>
        by_cases hf : p.deleteFails st.2 [toLibdnsRecord rec, makeTXTMarker oid rec.name]
        · refine ⟨Event.deleteFailed rec.name rec.type, ?_, rfl⟩
          show (if p.deleteFails st.2 [toLibdnsRecord rec, makeTXTMarker oid rec.name] then
              (st.1 ++ [Event.deleteFailed rec.name rec.type], st.2)
            else (st.1 ++ [Event.deleted rec.name rec.type],
              deleteRecords st.2 [toLibdnsRecord rec, makeTXTMarker oid rec.name])).1 =
            st.1 ++ [Event.deleteFailed rec.name rec.type]
          rw [if_pos hf]
        · refine ⟨Event.deleted rec.name rec.type, ?_, rfl⟩
          show (if p.deleteFails st.2 [toLibdnsRecord rec, makeTXTMarker oid rec.name] then
              (st.1 ++ [Event.deleteFailed rec.name rec.type], st.2)
            else (st.1 ++ [Event.deleted rec.name rec.type],
              deleteRecords st.2 [toLibdnsRecord rec, makeTXTMarker oid rec.name])).1 =
            st.1 ++ [Event.deleted rec.name rec.type]
          rw [if_neg hf]
    rcases ih (deleteStep oid p owned st k)
        (fun k' hk' => hk k' (List.mem_cons_of_mem k hk')) with ⟨evs, h1, h2, h3⟩
    refine ⟨ev :: evs, ?_, by simp [h2], ?_⟩
    · show (runDeletes oid p owned ks (deleteStep oid p owned st k)).1 = _
      rw [h1, hev1, List.append_assoc]
      rfl
    · intro e he
      rcases List.mem_cons.mp he with h | h
      · rw [h]; exact hev3
      · exact h3 e h

theorem runCreates_trace (oid : Str) (p : Provider)
    (recs : List Record) (st : List Event × Zone) :
    ∃ evs, (runCreates oid p recs st).1 = st.1 ++ evs ∧
      evs.length = recs.length ∧ ∀ e ∈ evs, isCreateOutcome e = true := by
  induction recs generalizing st with
  | nil => exact ⟨[], by simp [runCreates], rfl, by simp⟩
  | cons r rs ih =>
    obtain ⟨ev, hev1, hev3⟩ : ∃ ev, (createStep oid p st r).1 = st.1 ++ [ev] ∧
        isCreateOutcome ev = true := by
      unfold createStep
      by_cases hs : p.hasSetter = true
      · rw [if_pos hs]
        by_cases hf : p.setFails st.2 [toLibdnsRecord r, makeTXTMarker oid r.name]
        · exact ⟨Event.createFailed r.name r.type, by rw [if_pos hf], rfl⟩
        · exact ⟨Event.created r.name r.type r.value, by rw [if_neg hf], rfl⟩
      · rw [if_neg hs]
        by_cases hf : p.appendFails st.2 [toLibdnsRecord r, makeTXTMarker oid r.name]
        · exact ⟨Event.createFailed r.name r.type, by rw [if_pos hf], rfl⟩
        · exact ⟨Event.created r.name r.type r.value, by rw [if_neg hf], rfl⟩
    rcases ih (createStep oid p st r) with ⟨evs, h1, h2, h3⟩
    refine ⟨ev :: evs, ?_, by simp [h2], ?_⟩
    · show (runCreates oid p rs (createStep oid p st r)).1 = _
      rw [h1, hev1, List.append_assoc]
      rfl
    · intro e he
      rcases List.mem_cons.mp he with h | h
      · rw [h]; exact hev3
      · exact h3 e h

theorem runUpdates_trace (p : Provider)
    (recs : List Record) (st : List Event × Zone) :
    ∃ evs, (runUpdates p recs st).1 = st.1 ++ evs ∧
      evs.length = recs.length ∧ ∀ e ∈ evs, isUpdateOutcome e = true := by
  induction recs generalizing st with
  | nil => exact ⟨[], by simp [runUpdates], rfl, by simp⟩
  | cons r rs ih =>
    obtain ⟨ev, hev1, hev3⟩ : ∃ ev, (updateStep p st r).1 = st.1 ++ [ev] ∧
        isUpdateOutcome ev = true := by
      unfold updateStep
      by_cases hf : p.setFails st.2 [toLibdnsRecord r]
      · exact ⟨Event.updateFailed r.name r.type, by rw [if_pos hf], rfl⟩
      · exact ⟨Event.updated r.name r.type r.value, by rw [if_neg hf], rfl⟩
    rcases ih (updateStep p st r) with ⟨evs, h1, h2, h3⟩
    refine ⟨ev :: evs, ?_, by simp [h2], ?_⟩
    · show (runUpdates p rs (updateStep p st r)).1 = _
      rw [h1, hev1, List.append_assoc]
      rfl
    · intro e he
      rcases List.mem_cons.mp he with h | h
      · rw [h]; exact hev3
      · exact h3 e h

theorem parseOwned_key_colon {oid : Str} {records : List LibdnsRecord} {k : Str}
    (hk : k ∈ mkeys (parseOwnedRecords oid records)) : k.contains ':' = true := by
  rcases List.mem_map.mp hk with ⟨p, hp, hpk⟩
  rcases parseOwned_entry hp with ⟨z, _, _, _, he⟩
  have : k = keyOf z.RR.name z.RR.type := by
    rw [← hpk, he]
  rw [this]
  exact keyOf_contains_colon _ _

theorem reconcileDomain_ok {oid : Str} {p : Provider} {zone : Zone}
    {records : List Record} {tr : List Event} {z₂ : Zone}
    (h : reconcileDomain oid p zone records = Except.ok (tr, z₂)) :
    (tr, z₂) = phaseChain oid p (parseOwnedRecords oid zone)
      (computePlan (parseOwnedRecords oid zone) (buildDesired records))
      ([Event.planned
          ((computePlan (parseOwnedRecords oid zone) (buildDesired records)).toCreate.map recKey)
          ((computePlan (parseOwnedRecords oid zone) (buildDesired records)).toUpdate.map recKey)
          (computePlan (parseOwnedRecords oid zone) (buildDesired records)).toDelete], zone) := by
  unfold reconcileDomain at h
  split at h
  · cases h
  · split at h
    · cases h
    · split at h
      · cases h
      · injection h with h
        exact h.symm

theorem phaseChain_trace (oid : Str) (p : Provider) (owned : RecMap) (plan : Plan)
    (st0 : List Event × Zone)
    (hkeys : ∀ k ∈ plan.toDelete, k.contains ':' = true ∧ (mfind owned k).isSome = true) :
    ∃ dEvs cEvs uEvs,
      (phaseChain oid p owned plan st0).1 = st0.1 ++ (dEvs ++ (cEvs ++ uEvs)) ∧
      (∀ e ∈ dEvs, isDeleteOutcome e = true) ∧
      (∀ e ∈ cEvs, isCreateOutcome e = true) ∧
      (∀ e ∈ uEvs, isUpdateOutcome e = true) ∧
      dEvs.length = (if p.hasDeleter = true then plan.toDelete.length else 0) ∧
      cEvs.length = plan.toCreate.length ∧
      uEvs.length = (if p.hasSetter = true then plan.toUpdate.length else 0) := by
  unfold phaseChain
  obtain ⟨dEvs, hd1, hd2, hd3⟩ : ∃ dEvs,
      (if p.hasDeleter ∧ plan.toDelete ≠ [] then
        runDeletes oid p owned plan.toDelete st0 else st0).1 = st0.1 ++ dEvs ∧
      dEvs.length = (if p.hasDeleter = true then plan.toDelete.length else 0) ∧
      ∀ e ∈ dEvs, isDeleteOutcome e = true := by
    by_cases hd : p.hasDeleter ∧ plan.toDelete ≠ []
    · rcases runDeletes_trace oid p owned plan.toDelete st0 hkeys with ⟨evs, h1, h2, h3⟩
      refine ⟨evs, by rw [if_pos hd]; exact h1, ?_, h3⟩
      rw [if_pos hd.1, h2]
    · refine ⟨[], by rw [if_neg hd]; simp, ?_, by simp⟩
      by_cases hdel : p.hasDeleter = true
      · rw [if_pos hdel]
        have : plan.toDelete = [] := by
          by_contra hne
          exact hd ⟨hdel, hne⟩
        rw [this]
        rfl
      · rw [if_neg hdel]
        rfl
  obtain ⟨cEvs, hc1, hc2, hc3⟩ : ∃ cEvs,
      (if plan.toCreate ≠ [] then
        runCreates oid p plan.toCreate
          (if p.hasDeleter ∧ plan.toDelete ≠ [] then
            runDeletes oid p owned plan.toDelete st0 else st0)
        else (if p.hasDeleter ∧ plan.toDelete ≠ [] then
            runDeletes oid p owned plan.toDelete st0 else st0)).1 =
        (if p.hasDeleter ∧ plan.toDelete ≠ [] then
            runDeletes oid p owned plan.toDelete st0 else st0).1 ++ cEvs ∧
      cEvs.length = plan.toCreate.length ∧
      ∀ e ∈ cEvs, isCreateOutcome e = true := by
    by_cases hc : plan.toCreate ≠ []
    · rcases runCreates_trace oid p plan.toCreate
        (if p.hasDeleter ∧ plan.toDelete ≠ [] then
          runDeletes oid p owned plan.toDelete st0 else st0) with ⟨evs, h1, h2, h3⟩
      exact ⟨evs, by rw [if_pos hc]; exact h1, h2, h3⟩
    · refine ⟨[], by rw [if_neg hc]; simp, ?_, by simp⟩
      rw [not_not.mp hc]
      rfl
  obtain ⟨uEvs, hu1, hu2, hu3⟩ : ∃ uEvs,
      (if p.hasSetter ∧ plan.toUpdate ≠ [] then
        runUpdates p plan.toUpdate
          (if plan.toCreate ≠ [] then
            runCreates oid p plan.toCreate
              (if p.hasDeleter ∧ plan.toDelete ≠ [] then
                runDeletes oid p owned plan.toDelete st0 else st0)
            else (if p.hasDeleter ∧ plan.toDelete ≠ [] then
                runDeletes oid p owned plan.toDelete st0 else st0))
        else (if plan.toCreate ≠ [] then
            runCreates oid p plan.toCreate
              (if p.hasDeleter ∧ plan.toDelete ≠ [] then
                runDeletes oid p owned plan.toDelete st0 else st0)
            else (if p.hasDeleter ∧ plan.toDelete ≠ [] then
                runDeletes oid p owned plan.toDelete st0 else st0))).1 =
        (if plan.toCreate ≠ [] then
            runCreates oid p plan.toCreate
              (if p.hasDeleter ∧ plan.toDelete ≠ [] then
                runDeletes oid p owned plan.toDelete st0 else st0)
            else (if p.hasDeleter ∧ plan.toDelete ≠ [] then
                runDeletes oid p owned plan.toDelete st0 else st0)).1 ++ uEvs ∧
      uEvs.length = (if p.hasSetter = true then plan.toUpdate.length else 0) ∧
      ∀ e ∈ uEvs, isUpdateOutcome e = true := by
    by_cases hu : p.hasSetter ∧ plan.toUpdate ≠ []
    · rcases runUpdates_trace p plan.toUpdate
        (if plan.toCreate ≠ [] then
          runCreates oid p plan.toCreate
            (if p.hasDeleter ∧ plan.toDelete ≠ [] then
              runDeletes oid p owned plan.toDelete st0 else st0)
          else (if p.hasDeleter ∧ plan.toDelete ≠ [] then
              runDeletes oid p owned plan.toDelete st0 else st0)) with ⟨evs, h1, h2, h3⟩
      refine ⟨evs, by rw [if_pos hu]; exact h1, ?_, h3⟩
      rw [if_pos hu.1, h2]
    · refine ⟨[], by rw [if_neg hu]; simp, ?_, by simp⟩
      by_cases hset : p.hasSetter = true
      · rw [if_pos hset]
        have : plan.toUpdate = [] := by
          by_contra hne
          exact hu ⟨hset, hne⟩
        rw [this]
        rfl
      · rw [if_neg hset]
        rfl
  refine ⟨dEvs, cEvs, uEvs, ?_, hd3, hc3, hu3, hd2, hc2, hu2⟩
  rw [hu1, hc1, hd1, List.append_assoc, List.append_assoc]

theorem event_kinds (e : Event) :
    (isDeleteOutcome e = true → isCreateOutcome e = false ∧ isUpdateOutcome e = false) ∧
    (isCreateOutcome e = true → isDeleteOutcome e = false ∧ isUpdateOutcome e = false) ∧
    (isUpdateOutcome e = true → isDeleteOutcome e = false ∧ isCreateOutcome e = false) := by
  cases e <;> simp [isDeleteOutcome, isCreateOutcome, isUpdateOutcome]

theorem region_lt {l₁ l₂ : List Event} (P Q : Event → Bool)
    (hx : ∀ e ∈ l₁, Q e = false) (hy : ∀ e ∈ l₂, P e = false)
    {i j : Nat} (hi : i < (l₁ ++ l₂).length) (hj : j < (l₁ ++ l₂).length)
    (hPi : P ((l₁ ++ l₂).get ⟨i, hi⟩) = true)
    (hQj : Q ((l₁ ++ l₂).get ⟨j, hj⟩) = true) : i < j := by
  have hilt : i < l₁.length := by
    by_contra hge
    push_neg at hge
    have hbound : i - l₁.length < l₂.length := by
      rw [List.length_append] at hi
      omega
    have hmem : (l₁ ++ l₂).get ⟨i, hi⟩ ∈ l₂ := by
      rw [@List.get_append_right Event i l₁ l₂ hge hi hbound]
      exact l₂.get_mem _ _
    have hfalse := hy _ hmem
    rw [hPi] at hfalse
    cases hfalse
  have hjge : l₁.length ≤ j := by
    by_contra hlt
    push_neg at hlt
    have hmem : (l₁ ++ l₂).get ⟨j, hj⟩ ∈ l₁ := by
      rw [List.get_append j hlt]
      exact l₁.get_mem _ _
    have hfalse := hx _ hmem
    rw [hQj] at hfalse
    cases hfalse
  omega

theorem region_lt_of_eq (l l₁ l₂ : List Event) (P Q : Event → Bool)
    (heq : l = l₁ ++ l₂)
    (hx : ∀ e ∈ l₁, Q e = false) (hy : ∀ e ∈ l₂, P e = false)
    {i j : Nat} (hi : i < l.length) (hj : j < l.length)
    (hPi : P (l.get ⟨i, hi⟩) = true)
    (hQj : Q (l.get ⟨j, hj⟩) = true) : i < j := by
  subst heq
  exact region_lt P Q hx hy hi hj hPi hQj

/-- C7 as frozen is refuted: with a provider lacking the delete capability
and a nonempty `toDelete`, the pass reports only the plan announcement:
no per-item delete outcome and no "unsupported" log is emitted, so that part
of the plan is dropped silently. -/
theorem silent_capability_skip_refuted :
    reconcileDomain "X".data
      ⟨true, true, true, false, false,
        fun _ _ => false, fun _ _ => false, fun _ _ => false⟩
      [makeTXTMarker "X".data "w".data,
       LibdnsRecord.rr "w".data "A".data 300 "1.2.3.4".data] [] =
      Except.ok ([Event.planned [] [] ["w:A".data]],
        [makeTXTMarker "X".data "w".data,
         LibdnsRecord.rr "w".data "A".data 300 "1.2.3.4".data]) ∧
    (planOf "X".data
      [makeTXTMarker "X".data "w".data,
       LibdnsRecord.rr "w".data "A".data 300 "1.2.3.4".data] []).toDelete =
      ["w:A".data] ∧
    ([Event.planned [] [] ["w:A".data]] : List Event).countP isDeleteOutcome = 0 := by
  refine ⟨by rfl, by decide, by decide⟩

/-- C7 (amended: a phase whose capability is absent is skipped silently —
no unsupported log exists in the code; phases that do run report exactly one
outcome per plan item, success or failure, and creates are always reported). -/
theorem outcome_reporting (ownerID : Str) (p : Provider) (zone : Zone)
    (records : List Record) (tr : List Event) (z₂ : Zone)
    (h : reconcileDomain ownerID p zone records = Except.ok (tr, z₂)) :
    (p.hasDeleter = false → tr.countP isDeleteOutcome = 0) ∧
    (p.hasDeleter = true →
      tr.countP isDeleteOutcome = (planOf ownerID zone records).toDelete.length) ∧
    tr.countP isCreateOutcome = (planOf ownerID zone records).toCreate.length ∧
    (p.hasSetter = false → tr.countP isUpdateOutcome = 0) ∧
    (p.hasSetter = true →
      tr.countP isUpdateOutcome = (planOf ownerID zone records).toUpdate.length) := by
  have heq := reconcileDomain_ok h
  have hkeys : ∀ k ∈ (computePlan (parseOwnedRecords ownerID zone)
      (buildDesired records)).toDelete,
      k.contains ':' = true ∧ (mfind (parseOwnedRecords ownerID zone) k).isSome = true := by
    intro k hk
    have hmem := (toDelete_mem.mp hk).1
    exact ⟨parseOwned_key_colon hmem, mfind_isSome_of_mem_keys hmem⟩
  rcases phaseChain_trace ownerID p (parseOwnedRecords ownerID zone)
      (computePlan (parseOwnedRecords ownerID zone) (buildDesired records))
      ([Event.planned
        ((computePlan (parseOwnedRecords ownerID zone) (buildDesired records)).toCreate.map recKey)
        ((computePlan (parseOwnedRecords ownerID zone) (buildDesired records)).toUpdate.map recKey)
        (computePlan (parseOwnedRecords ownerID zone) (buildDesired records)).toDelete], zone)
      hkeys with ⟨d, c, u, h1, h3, h4, h5, h6, h7, h8⟩
  have htr : tr = Event.planned
      ((computePlan (parseOwnedRecords ownerID zone) (buildDesired records)).toCreate.map recKey)
      ((computePlan (parseOwnedRecords ownerID zone) (buildDesired records)).toUpdate.map recKey)
      (computePlan (parseOwnedRecords ownerID zone) (buildDesired records)).toDelete ::
      (d ++ (c ++ u)) := by
    have h0 := congrArg Prod.fst heq
    rw [h1] at h0
    exact h0
  subst htr
  unfold planOf
  have hcd : (d ++ (c ++ u)).countP isDeleteOutcome = d.length := by
    rw [List.countP_append, List.countP_append]
    have e1 : d.countP isDeleteOutcome = d.length :=
      List.countP_eq_length.mpr (fun a ha => h3 a ha)
    have e2 : c.countP isDeleteOutcome = 0 :=
      List.countP_eq_zero.mpr (fun a ha => by
        rw [((event_kinds a).2.1 (h4 a ha)).1]
        simp)
    have e3 : u.countP isDeleteOutcome = 0 :=
      List.countP_eq_zero.mpr (fun a ha => by
        rw [((event_kinds a).2.2 (h5 a ha)).1]
        simp)
    omega
  have hcc : (d ++ (c ++ u)).countP isCreateOutcome = c.length := by
    rw [List.countP_append, List.countP_append]
    have e1 : d.countP isCreateOutcome = 0 :=
      List.countP_eq_zero.mpr (fun a ha => by
        rw [((event_kinds a).1 (h3 a ha)).1]
        simp)
    have e2 : c.countP isCreateOutcome = c.length :=
      List.countP_eq_length.mpr (fun a ha => h4 a ha)
    have e3 : u.countP isCreateOutcome = 0 :=
      List.countP_eq_zero.mpr (fun a ha => by
        rw [((event_kinds a).2.2 (h5 a ha)).2]
        simp)
    omega
  have hcu : (d ++ (c ++ u)).countP isUpdateOutcome = u.length := by
    rw [List.countP_append, List.countP_append]
    have e1 : d.countP isUpdateOutcome = 0 :=
      List.countP_eq_zero.mpr (fun a ha => by
        rw [((event_kinds a).1 (h3 a ha)).2]
        simp)
    have e2 : c.countP isUpdateOutcome = 0 :=
      List.countP_eq_zero.mpr (fun a ha => by
        rw [((event_kinds a).2.1 (h4 a ha)).2]
        simp)
    have e3 : u.countP isUpdateOutcome = u.length :=
      List.countP_eq_length.mpr (fun a ha => h5 a ha)
    omega
  refine ⟨?_, ?_, ?_, ?_, ?_⟩
  · intro hdel
    rw [List.countP_cons_of_neg _ _ (by simp [isDeleteOutcome]), hcd, h6, hdel]
    simp
  · intro hdel
    rw [List.countP_cons_of_neg _ _ (by simp [isDeleteOutcome]), hcd, h6, hdel]
    simp
  · rw [List.countP_cons_of_neg _ _ (by simp [isCreateOutcome]), hcc, h7]
  · intro hset
    rw [List.countP_cons_of_neg _ _ (by simp [isUpdateOutcome]), hcu, h8, hset]
    simp
  · intro hset
    rw [List.countP_cons_of_neg _ _ (by simp [isUpdateOutcome]), hcu, h8, hset]
    simp

/-- Witness for `outcome_reporting`: a concrete pass that creates one record
reports exactly one create outcome. -/
theorem outcome_reporting_witness :
    ([Event.planned ["www:A".data] [] [],
      Event.created "www".data "A".data "192.0.2.1".data] : List Event).countP
        isCreateOutcome =
      (planOf "X".data [] [⟨"www".data, "A".data, "192.0.2.1".data, 300⟩]).toCreate.length :=
  (outcome_reporting "X".data faithfulProvider []
    [⟨"www".data, "A".data, "192.0.2.1".data, 300⟩]
    [Event.planned ["www:A".data] [] [],
     Event.created "www".data "A".data "192.0.2.1".data]
    [LibdnsRecord.address "www".data (IPAddr.v4 192 0 2 1) 300,
     makeTXTMarker "X".data "www".data]
    (by rfl)).2.2.1

/-- C8: within one pass the apply phases run in the fixed order delete, then
create, then update: in the reported trace every delete outcome precedes
every create outcome, and every create outcome precedes every update
outcome (each outcome is emitted by the corresponding provider call). -/
theorem apply_phase_order (ownerID : Str) (p : Provider) (zone : Zone)
    (records : List Record) (tr : List Event) (z₂ : Zone)
    (h : reconcileDomain ownerID p zone records = Except.ok (tr, z₂))
    (i j : Nat) (hi : i < tr.length) (hj : j < tr.length) :
    (isDeleteOutcome (tr.get ⟨i, hi⟩) = true →
      isCreateOutcome (tr.get ⟨j, hj⟩) = true → i < j) ∧
    (isDeleteOutcome (tr.get ⟨i, hi⟩) = true →
      isUpdateOutcome (tr.get ⟨j, hj⟩) = true → i < j) ∧
    (isCreateOutcome (tr.get ⟨i, hi⟩) = true →
      isUpdateOutcome (tr.get ⟨j, hj⟩) = true → i < j) := by
  have heq := reconcileDomain_ok h
  have hkeys : ∀ k ∈ (computePlan (parseOwnedRecords ownerID zone)
      (buildDesired records)).toDelete,
      k.contains ':' = true ∧ (mfind (parseOwnedRecords ownerID zone) k).isSome = true := by
    intro k hk
    have hmem := (toDelete_mem.mp hk).1
    exact ⟨parseOwned_key_colon hmem, mfind_isSome_of_mem_keys hmem⟩
  rcases phaseChain_trace ownerID p (parseOwnedRecords ownerID zone)
      (computePlan (parseOwnedRecords ownerID zone) (buildDesired records))
      ([Event.planned
        ((computePlan (parseOwnedRecords ownerID zone) (buildDesired records)).toCreate.map recKey)
        ((computePlan (parseOwnedRecords ownerID zone) (buildDesired records)).toUpdate.map recKey)
        (computePlan (parseOwnedRecords ownerID zone) (buildDesired records)).toDelete], zone)
      hkeys with ⟨d, c, u, h1, h3, h4, h5, _, _, _⟩
  have htr : tr = Event.planned
      ((computePlan (parseOwnedRecords ownerID zone) (buildDesired records)).toCreate.map recKey)
      ((computePlan (parseOwnedRecords ownerID zone) (buildDesired records)).toUpdate.map recKey)
      (computePlan (parseOwnedRecords ownerID zone) (buildDesired records)).toDelete ::
      (d ++ (c ++ u)) := by
    have h0 := congrArg Prod.fst heq
    rw [h1] at h0
    exact h0
  refine ⟨?_, ?_, ?_⟩
  · intro hPi hQj
    refine region_lt_of_eq tr (Event.planned
        ((computePlan (parseOwnedRecords ownerID zone) (buildDesired records)).toCreate.map recKey)
        ((computePlan (parseOwnedRecords ownerID zone) (buildDesired records)).toUpdate.map recKey)
        (computePlan (parseOwnedRecords ownerID zone) (buildDesired records)).toDelete :: d)
      (c ++ u) isDeleteOutcome isCreateOutcome
      (by rw [htr, List.cons_append]) ?_ ?_ hi hj hPi hQj
    · intro e he
      rcases List.mem_cons.mp he with h | h
      · rw [h]; rfl
      · exact ((event_kinds e).1 (h3 e h)).1
    · intro e he
      rcases List.mem_append.mp he with h | h
      · exact ((event_kinds e).2.1 (h4 e h)).1
      · exact ((event_kinds e).2.2 (h5 e h)).1
  · intro hPi hQj
    refine region_lt_of_eq tr (Event.planned
        ((computePlan (parseOwnedRecords ownerID zone) (buildDesired records)).toCreate.map recKey)
        ((computePlan (parseOwnedRecords ownerID zone) (buildDesired records)).toUpdate.map recKey)
        (computePlan (parseOwnedRecords ownerID zone) (buildDesired records)).toDelete :: d)
      (c ++ u) isDeleteOutcome isUpdateOutcome
      (by rw [htr, List.cons_append]) ?_ ?_ hi hj hPi hQj
    · intro e he
      rcases List.mem_cons.mp he with h | h
      · rw [h]; rfl
      · exact ((event_kinds e).1 (h3 e h)).2
    · intro e he
      rcases List.mem_append.mp he with h | h
      · exact ((event_kinds e).2.1 (h4 e h)).1
      · exact ((event_kinds e).2.2 (h5 e h)).1
  · intro hPi hQj
    refine region_lt_of_eq tr (Event.planned
        ((computePlan (parseOwnedRecords ownerID zone) (buildDesired records)).toCreate.map recKey)
        ((computePlan (parseOwnedRecords ownerID zone) (buildDesired records)).toUpdate.map recKey)
        (computePlan (parseOwnedRecords ownerID zone) (buildDesired records)).toDelete ::
        (d ++ c)) u isCreateOutcome isUpdateOutcome
      (by rw [htr, List.cons_append, List.append_assoc]) ?_ ?_ hi hj hPi hQj
    · intro e he
      rcases List.mem_cons.mp he with h | h
      · rw [h]; rfl
      · rcases List.mem_append.mp h with h2 | h2
        · exact ((event_kinds e).1 (h3 e h2)).2
        · exact ((event_kinds e).2.1 (h4 e h2)).2
    · intro e he
      exact ((event_kinds e).2.2 (h5 e he)).2

/-- Witness for `apply_phase_order`: in a concrete pass that deletes one
record and creates another, the delete outcome (index 1) precedes the create
outcome (index 2). -/
theorem apply_phase_order_witness : (1 : Nat) < 2 :=
  (apply_phase_order "X".data faithfulProvider
    [makeTXTMarker "X".data "old".data,
     LibdnsRecord.rr "old".data "A".data 300 "1.2.3.4".data]
    [⟨"new".data, "TXT".data, "t".data, 60⟩]
    [Event.planned ["new:TXT".data] [] ["old:A".data],
     Event.deleted "old".data "A".data,
     Event.created "new".data "TXT".data "t".data]
    [LibdnsRecord.rr "old".data "A".data 300 "1.2.3.4".data,
     LibdnsRecord.txt "new".data "t".data 60,
     makeTXTMarker "X".data "new".data]
    (by rfl) 1 2 (by decide) (by decide)).1 (by decide) (by decide)

/-! ## Zone evolution under the apply phases (faithful provider) -/

theorem sameNameType_iff {x y : LibdnsRecord} :
    sameNameType x y = true ↔ x.RR.name = y.RR.name ∧ x.RR.type = y.RR.type := by
  unfold sameNameType
  rw [Bool.and_eq_true, beq_iff_eq, beq_iff_eq]

theorem sameNameType_false {x y : LibdnsRecord}
    (h : ¬ (x.RR.name = y.RR.name ∧ x.RR.type = y.RR.type)) :
    sameNameType x y = false := by
  rw [← Bool.not_eq_true, sameNameType_iff]
  exact h

theorem sameNameType_toLibdns {a b : Record} (ha : goodRec a) (hb : goodRec b) :
    sameNameType (toLibdnsRecord a) (toLibdnsRecord b) = true ↔ recKey a = recKey b := by
  rw [sameNameType_iff, toLibdns_RR_name, toLibdns_RR_name, ha.2.2.1, hb.2.2.1]
  constructor
  · rintro ⟨h1, h2⟩
    unfold recKey keyOf
    rw [h1, h2]
  · intro h
    exact keyOf_inj ha.2.1 hb.2.1 h

theorem sameNameType_marker_lib {oid n : Str} {r : Record}
    (h : ¬ strHasPrefix r.name txtPrefix = true) :
    sameNameType (makeTXTMarker oid n) (toLibdnsRecord r) = false := by
  apply sameNameType_false
  rintro ⟨h1, _⟩
  rw [toLibdns_RR_name] at h1
  exact name_ne_of_not_prefix h (by rw [← h1]; rfl)

theorem sameNameType_lib_marker {oid n : Str} {r : Record}
    (h : ¬ strHasPrefix r.name txtPrefix = true) :
    sameNameType (toLibdnsRecord r) (makeTXTMarker oid n) = false := by
  apply sameNameType_false
  rintro ⟨h1, _⟩
  rw [toLibdns_RR_name] at h1
  exact name_ne_of_not_prefix h h1

theorem sameNameType_marker_marker {oid oid' n n' : Str} :
    sameNameType (makeTXTMarker oid n) (makeTXTMarker oid' n') = true ↔ n = n' := by
  rw [sameNameType_iff]
  show txtPrefix ++ n = txtPrefix ++ n' ∧ (['T', 'X', 'T'] : Str) = ['T', 'X', 'T'] ↔ n = n'
  constructor
  · rintro ⟨h1, _⟩
    exact marker_name_inj h1
  · intro h
    rw [h]
    exact ⟨rfl, rfl⟩

theorem toLibdns_ne_marker {r : Record} {oid n : Str}
    (h : ¬ strHasPrefix r.name txtPrefix = true) :
    toLibdnsRecord r ≠ makeTXTMarker oid n := by
  intro he
  apply name_ne_of_not_prefix h
  rw [← toLibdns_RR_name r, he]
  rfl

theorem marker_eq_iff {oid n n' : Str} :
    makeTXTMarker oid n = makeTXTMarker oid n' ↔ n = n' := by
  constructor
  · intro h
    unfold makeTXTMarker at h
    injection h with h1 _
    exact marker_name_inj h1
  · intro h
    rw [h]

theorem mem_materialize {oid : Str} {D₀ : List Record} {x : LibdnsRecord} :
    x ∈ materialize oid D₀ ↔
      ∃ r ∈ D₀, x = toLibdnsRecord r ∨ x = makeTXTMarker oid r.name := by
  unfold materialize
  rw [List.mem_flatMap]
  constructor
  · rintro ⟨r, hr, hx⟩
    rcases List.mem_cons.mp hx with h | h
    · exact ⟨r, hr, Or.inl h⟩
    · exact ⟨r, hr, Or.inr (List.mem_singleton.mp h)⟩
  · rintro ⟨r, hr, h | h⟩
    · exact ⟨r, hr, by rw [h]; exact List.mem_cons_self _ _⟩
    · exact ⟨r, hr, by rw [h]; exact List.mem_cons_of_mem _ (List.mem_singleton.mpr rfl)⟩

theorem mkeys_map_pair (D₀ : List Record) :
    mkeys (D₀.map (fun r => (recKey r, defRec r))) = D₀.map recKey := by
  unfold mkeys
  rw [List.map_map]
  rfl

theorem mem_setRecords {zone : Zone} {recs : List LibdnsRecord} {x : LibdnsRecord} :
    x ∈ setRecords zone recs ↔
      (x ∈ zone ∧ recs.any (fun r => sameNameType x r) = false) ∨ x ∈ recs := by
  unfold setRecords
  rw [List.mem_append, List.mem_filter]
  constructor
  · rintro (⟨h1, h2⟩ | h)
    · exact Or.inl ⟨h1, by rwa [Bool.not_eq_true'] at h2⟩
    · exact Or.inr h
  · rintro (⟨h1, h2⟩ | h)
    · exact Or.inl ⟨h1, by rwa [Bool.not_eq_true']⟩
    · exact Or.inr h

theorem runDeletes_zone (oid : Str) (owned : RecMap) (keys : List Str)
    (st : List Event × Zone) :
    (runDeletes oid faithfulProvider owned keys st).2 =
      st.2.filter (delPred oid owned keys) := by
  induction keys generalizing st with
  | nil =>
    show st.2 = st.2.filter (delPred oid owned [])
    exact (List.filter_eq_self.mpr (fun a _ => rfl)).symm
  | cons k ks ih =>
    show (runDeletes oid faithfulProvider owned ks
      (deleteStep oid faithfulProvider owned st k)).2 = _
    rw [ih]
    have hstep : (deleteStep oid faithfulProvider owned st k).2 =
        st.2.filter (fun z => !(delTargets oid owned k).contains z) := by
      unfold deleteStep delTargets
      by_cases hc : (!k.contains ':') = true
      · rw [if_pos hc, if_pos hc]
        exact (List.filter_eq_self.mpr (fun a _ => rfl)).symm
      · rw [if_neg hc, if_neg hc]
        cases hm : mfind owned k with
        | none => exact (List.filter_eq_self.mpr (fun a _ => rfl)).symm
        | some rec =>
          show (if faithfulProvider.deleteFails st.2
              [toLibdnsRecord rec, makeTXTMarker oid rec.name] then
              (st.1 ++ [Event.deleteFailed rec.name rec.type], st.2)
            else (st.1 ++ [Event.deleted rec.name rec.type],
              deleteRecords st.2 [toLibdnsRecord rec, makeTXTMarker oid rec.name])).2 =
            st.2.filter (fun z =>
              !([toLibdnsRecord rec, makeTXTMarker oid rec.name].contains z))
          rw [if_neg (show ¬ (faithfulProvider.deleteFails st.2
            [toLibdnsRecord rec, makeTXTMarker oid rec.name] = true) by
              simp [faithfulProvider])]
          rfl
    rw [hstep, List.filter_filter]
    apply List.filter_congr
    intro z _
    unfold delPred
    rw [List.any_cons]
    cases h1 : (delTargets oid owned k).contains z <;>
      cases h2 : ks.any (fun k' => (delTargets oid owned k').contains z) <;>
        simp [h1, h2]

theorem runCreates_zone (oid : Str) (recs : List Record) (st : List Event × Zone) :
    ∃ app : Zone,
      (runCreates oid faithfulProvider recs st).2 =
        st.2.filter (createPred oid recs) ++ app ∧
      ∀ x ∈ app, ∃ r ∈ recs, x = toLibdnsRecord r ∨ x = makeTXTMarker oid r.name := by
  induction recs generalizing st with
  | nil =>
    refine ⟨[], ?_, by simp⟩
    rw [List.append_nil]
    exact (List.filter_eq_self.mpr (fun a _ => rfl)).symm
  | cons r rs ih =>
    have hstep : (createStep oid faithfulProvider st r).2 =
        st.2.filter (fun z => !(sameNameType z (toLibdnsRecord r) ||
          sameNameType z (makeTXTMarker oid r.name))) ++
          [toLibdnsRecord r, makeTXTMarker oid r.name] := by
      unfold createStep
      rw [if_pos (show faithfulProvider.hasSetter = true from rfl),
        if_neg (show ¬ (faithfulProvider.setFails st.2
          [toLibdnsRecord r, makeTXTMarker oid r.name] = true) by simp [faithfulProvider])]
      show setRecords st.2 [toLibdnsRecord r, makeTXTMarker oid r.name] = _
      unfold setRecords
      congr 1
      apply List.filter_congr
      intro z _
      rw [List.any_cons, List.any_cons, List.any_nil, Bool.or_false]
    rcases ih (createStep oid faithfulProvider st r) with ⟨app, h1, h2⟩
    refine ⟨([toLibdnsRecord r, makeTXTMarker oid r.name].filter
      (createPred oid rs)) ++ app, ?_, ?_⟩
    · show (runCreates oid faithfulProvider rs (createStep oid faithfulProvider st r)).2 = _
      rw [h1, hstep, List.filter_append, List.filter_filter]
      have hcong : List.filter (fun a => createPred oid rs a &&
          !(sameNameType a (toLibdnsRecord r) ||
            sameNameType a (makeTXTMarker oid r.name))) st.2 =
          List.filter (createPred oid (r :: rs)) st.2 := by
        apply List.filter_congr
        intro z _
        unfold createPred
        rw [List.any_cons]
        cases h3 : sameNameType z (toLibdnsRecord r) <;>
          cases h4 : sameNameType z (makeTXTMarker oid r.name) <;>
            cases h5 : rs.any (fun r' => sameNameType z (toLibdnsRecord r') ||
              sameNameType z (makeTXTMarker oid r'.name)) <;>
              simp [h3, h4, h5]
      rw [hcong, List.append_assoc]
    · intro x hx
      rcases List.mem_append.mp hx with h | h
      · have hx2 := List.mem_filter.mp h
        rcases List.mem_cons.mp hx2.1 with h6 | h6
        · exact ⟨r, List.mem_cons_self r rs, Or.inl h6⟩
        · exact ⟨r, List.mem_cons_self r rs, Or.inr (List.mem_singleton.mp h6)⟩
      · rcases h2 x h with ⟨r', hr', h6⟩
        exact ⟨r', List.mem_cons_of_mem r hr', h6⟩

theorem runUpdates_zone (recs : List Record) (st : List Event × Zone) :
    ∃ app : Zone,
      (runUpdates faithfulProvider recs st).2 =
        st.2.filter (updatePred recs) ++ app ∧
      ∀ x ∈ app, ∃ r ∈ recs, x = toLibdnsRecord r := by
  induction recs generalizing st with
  | nil =>
    refine ⟨[], ?_, by simp⟩
    rw [List.append_nil]
    exact (List.filter_eq_self.mpr (fun a _ => rfl)).symm
  | cons r rs ih =>
    have hstep : (updateStep faithfulProvider st r).2 =
        st.2.filter (fun z => !sameNameType z (toLibdnsRecord r)) ++ [toLibdnsRecord r] := by
      unfold updateStep
      rw [if_neg (show ¬ (faithfulProvider.setFails st.2
        [toLibdnsRecord r] = true) by simp [faithfulProvider])]
      show setRecords st.2 [toLibdnsRecord r] = _
      unfold setRecords
      congr 1
      apply List.filter_congr
      intro z _
      rw [List.any_cons, List.any_nil, Bool.or_false]
    rcases ih (updateStep faithfulProvider st r) with ⟨app, h1, h2⟩
    refine ⟨([toLibdnsRecord r].filter (updatePred rs)) ++ app, ?_, ?_⟩
    · show (runUpdates faithfulProvider rs (updateStep faithfulProvider st r)).2 = _
      rw [h1, hstep, List.filter_append, List.filter_filter]
      have hcong : List.filter (fun a => updatePred rs a &&
          !sameNameType a (toLibdnsRecord r)) st.2 =
          List.filter (updatePred (r :: rs)) st.2 := by
        apply List.filter_congr
        intro z _
        unfold updatePred
        rw [List.any_cons]
        cases h3 : sameNameType z (toLibdnsRecord r) <;>
          cases h5 : rs.any (fun r' => sameNameType z (toLibdnsRecord r')) <;>
            simp [h3, h5]
      rw [hcong, List.append_assoc]
    · intro x hx
      rcases List.mem_append.mp hx with h | h
      · have hx2 := List.mem_filter.mp h
        exact ⟨r, List.mem_cons_self r rs, List.mem_singleton.mp hx2.1⟩
      · rcases h2 x h with ⟨r', hr', h6⟩
        exact ⟨r', List.mem_cons_of_mem r hr', h6⟩

theorem markerNames_materialize_mem {oid : Str} {D₀ : List Record} {r : Record}
    (hr : r ∈ D₀) :
    (markerNames oid (materialize oid D₀)).contains r.name = true := by
  apply List.elem_eq_true_of_mem
  apply markerNames_mem.mpr
  refine ⟨makeTXTMarker oid r.name,
    mem_materialize.mpr ⟨r, hr, Or.inr rfl⟩, rfl, ?_, Or.inl rfl, ?_⟩
  · exact strHasPrefix_append_self txtPrefix r.name
  · exact (strTrimPrefix_append_self txtPrefix r.name).symm

theorem classifyStep_lib {markers : List Str} {r : Record} (hg : goodRec r)
    (hm : markers.contains r.name = true) (acc : RecMap) :
    classifyStep markers acc (toLibdnsRecord r) = minsert acc (recKey r) (defRec r) := by
  unfold classifyStep
  rw [toLibdns_RR_name, toLibdns_RR_ttl, hg.2.2.1, hg.2.2.2.1]
  rw [if_neg hg.1, if_pos hm]
  rfl

theorem classifyStep_marker {markers : List Str} {oid n : Str} (acc : RecMap) :
    classifyStep markers acc (makeTXTMarker oid n) = acc := by
  unfold classifyStep
  rw [if_pos (show strHasPrefix (makeTXTMarker oid n).RR.name txtPrefix = true from
    strHasPrefix_append_self txtPrefix n)]

theorem classify_materialize_fold {oid : Str} {markers : List Str} {D : List Record}
    (h : ∀ r ∈ D, goodRec r ∧ markers.contains r.name = true) (acc : RecMap) :
    (materialize oid D).foldl (classifyStep markers) acc =
      D.foldl (fun m r => minsert m (recKey r) (defRec r)) acc := by
  induction D generalizing acc with
  | nil => rfl
  | cons r rs ih =>
    show ([toLibdnsRecord r, makeTXTMarker oid r.name] ++ materialize oid rs).foldl
      (classifyStep markers) acc = _
    rw [List.foldl_append]
    have hr := h r (List.mem_cons_self r rs)
    rw [show ([toLibdnsRecord r, makeTXTMarker oid r.name]).foldl
        (classifyStep markers) acc =
        classifyStep markers (classifyStep markers acc (toLibdnsRecord r))
          (makeTXTMarker oid r.name) from rfl,
      classifyStep_lib hr.1 hr.2, classifyStep_marker,
      ih (fun r' hr' => h r' (List.mem_cons_of_mem r hr'))]
    rfl

theorem mem_mkeys_append_single {m : RecMap} {k : Str} {v : Record} {k' : Str} :
    k' ∈ mkeys (m ++ [(k, v)]) ↔ k' ∈ mkeys m ∨ k' = k := by
  unfold mkeys
  rw [List.map_append, List.mem_append]
  simp only [List.map_cons, List.map_nil, List.mem_singleton]

theorem foldl_minsert_fresh (D : List Record) (acc : RecMap)
    (hnd : (D.map recKey).Nodup) (hdisj : ∀ r ∈ D, recKey r ∉ mkeys acc) :
    D.foldl (fun m r => minsert m (recKey r) (defRec r)) acc =
      acc ++ D.map (fun r => (recKey r, defRec r)) := by
  induction D generalizing acc with
  | nil => rw [List.map_nil, List.append_nil]; rfl
  | cons r rs ih =>
    rw [List.map_cons] at hnd
    rw [List.foldl_cons, List.map_cons]
    rw [minsert_of_not_mem _ (hdisj r (List.mem_cons_self r rs))]
    rw [ih (acc ++ [(recKey r, defRec r)]) (List.nodup_cons.mp hnd).2 ?_]
    · rw [List.append_assoc, List.singleton_append]
    · intro r' hr' hmem
      rcases mem_mkeys_append_single.mp hmem with h1 | h1
      · exact hdisj r' (List.mem_cons_of_mem r hr') h1
      · exact (List.nodup_cons.mp hnd).1 (h1 ▸ List.mem_map.mpr ⟨r', hr', rfl⟩)

theorem parseOwned_materialize {oid : Str} {D₀ : List Record}
    (h₀ : ∀ r ∈ D₀, goodRec r) (hnd : (D₀.map recKey).Nodup) :
    parseOwnedRecords oid (materialize oid D₀) =
      D₀.map (fun r => (recKey r, defRec r)) := by
  unfold parseOwnedRecords
  rw [classify_materialize_fold
    (fun r hr => ⟨h₀ r hr, markerNames_materialize_mem hr⟩) [],
    foldl_minsert_fresh D₀ [] hnd (fun r _ h => by cases h)]
  rfl

theorem mfind_map_pair {D₀ : List Record} (hnd : (D₀.map recKey).Nodup)
    {r₀ : Record} (hr : r₀ ∈ D₀) :
    mfind (D₀.map (fun r => (recKey r, defRec r))) (recKey r₀) = some (defRec r₀) :=
  mfind_of_mem (by rw [mkeys_map_pair]; exact hnd)
    (List.mem_map.mpr ⟨r₀, hr, rfl⟩)

theorem mfind_map_pair_inv {D₀ : List Record} {k : Str} {e : Record}
    (h : mfind (D₀.map (fun r => (recKey r, defRec r))) k = some e) :
    ∃ r₀ ∈ D₀, k = recKey r₀ ∧ e = defRec r₀ := by
  rcases List.mem_map.mp (mfind_mem h) with ⟨r₀, hr₀, he⟩
  injection he with h1 h2
  exact ⟨r₀, hr₀, h1.symm, h2.symm⟩

theorem phaseChain_faithful (oid : Str) (owned : RecMap) (plan : Plan)
    (st : List Event × Zone) :
    phaseChain oid faithfulProvider owned plan st =
      runUpdates faithfulProvider plan.toUpdate
        (runCreates oid faithfulProvider plan.toCreate
          (runDeletes oid faithfulProvider owned plan.toDelete st)) := by
  unfold phaseChain
  by_cases h1 : plan.toDelete = [] <;> by_cases h2 : plan.toCreate = [] <;>
    by_cases h3 : plan.toUpdate = [] <;>
      simp [h1, h2, h3, faithfulProvider, runDeletes, runCreates, runUpdates]

theorem createStep_faithful_zone (oid : Str) (st : List Event × Zone) (r : Record) :
    (createStep oid faithfulProvider st r).2 =
      setRecords st.2 [toLibdnsRecord r, makeTXTMarker oid r.name] := by
  unfold createStep
  rw [if_pos (show faithfulProvider.hasSetter = true from rfl),
    if_neg (show ¬ (faithfulProvider.setFails st.2
      [toLibdnsRecord r, makeTXTMarker oid r.name] = true) by simp [faithfulProvider])]

theorem updateStep_faithful_zone (st : List Event × Zone) (r : Record) :
    (updateStep faithfulProvider st r).2 = setRecords st.2 [toLibdnsRecord r] := by
  unfold updateStep
  rw [if_neg (show ¬ (faithfulProvider.setFails st.2
    [toLibdnsRecord r] = true) by simp [faithfulProvider])]

theorem createStep_marker_mem {oid n : Str} {st : List Event × Zone} {r : Record}
    (hg : ¬ strHasPrefix r.name txtPrefix = true)
    (h : makeTXTMarker oid n ∈ st.2) :
    makeTXTMarker oid n ∈ (createStep oid faithfulProvider st r).2 := by
  rw [createStep_faithful_zone]
  by_cases hn : n = r.name
  · subst hn
    exact mem_setRecords.mpr (Or.inr
      (List.mem_cons_of_mem _ (List.mem_singleton.mpr rfl)))
  · refine mem_setRecords.mpr (Or.inl ⟨h, ?_⟩)
    rw [List.any_cons, List.any_cons, List.any_nil, sameNameType_marker_lib hg,
      Bool.eq_false_iff.mpr (fun hx => hn (sameNameType_marker_marker.mp hx))]
    rfl

theorem runCreates_marker_mem {oid n : Str} {recs : List Record}
    (hg : ∀ r ∈ recs, ¬ strHasPrefix r.name txtPrefix = true)
    {st : List Event × Zone} (h : makeTXTMarker oid n ∈ st.2) :
    makeTXTMarker oid n ∈ (runCreates oid faithfulProvider recs st).2 := by
  induction recs generalizing st with
  | nil => exact h
  | cons c cs ih =>
    exact ih (fun r hr => hg r (List.mem_cons_of_mem c hr))
      (createStep_marker_mem (hg c (List.mem_cons_self c cs)) h)

theorem updateStep_mem {st : List Event × Zone} {r : Record} {x : LibdnsRecord}
    (hx : sameNameType x (toLibdnsRecord r) = false) (h : x ∈ st.2) :
    x ∈ (updateStep faithfulProvider st r).2 := by
  rw [updateStep_faithful_zone]
  refine mem_setRecords.mpr (Or.inl ⟨h, ?_⟩)
  rw [List.any_cons, List.any_nil, hx]
  rfl

theorem runUpdates_marker_mem {oid n : Str} {recs : List Record}
    (hg : ∀ r ∈ recs, ¬ strHasPrefix r.name txtPrefix = true)
    {st : List Event × Zone} (h : makeTXTMarker oid n ∈ st.2) :
    makeTXTMarker oid n ∈ (runUpdates faithfulProvider recs st).2 := by
  induction recs generalizing st with
  | nil => exact h
  | cons c cs ih =>
    exact ih (fun r hr => hg r (List.mem_cons_of_mem c hr))
      (updateStep_mem (sameNameType_marker_lib (hg c (List.mem_cons_self c cs))) h)

theorem runUpdates_lib_mem {r₀ : Record} (hg₀ : goodRec r₀) {recs : List Record}
    (hother : ∀ r ∈ recs, goodRec r ∧ recKey r ≠ recKey r₀)
    {st : List Event × Zone} (h : toLibdnsRecord r₀ ∈ st.2) :
    toLibdnsRecord r₀ ∈ (runUpdates faithfulProvider recs st).2 := by
  induction recs generalizing st with
  | nil => exact h
  | cons c cs ih =>
    have hc := hother c (List.mem_cons_self c cs)
    refine ih (fun r hr => hother r (List.mem_cons_of_mem c hr)) (updateStep_mem ?_ h)
    exact Bool.eq_false_iff.mpr
      (fun hx => hc.2 ((sameNameType_toLibdns hg₀ hc.1).mp hx).symm)

theorem createStep_lib_mem {oid : Str} {r₀ : Record} (hg₀ : goodRec r₀)
    {st : List Event × Zone} {r : Record} (hgr : goodRec r)
    (hne : recKey r ≠ recKey r₀) (h : toLibdnsRecord r₀ ∈ st.2) :
    toLibdnsRecord r₀ ∈ (createStep oid faithfulProvider st r).2 := by
  rw [createStep_faithful_zone]
  refine mem_setRecords.mpr (Or.inl ⟨h, ?_⟩)
  rw [List.any_cons, List.any_cons, List.any_nil, sameNameType_lib_marker hg₀.1,
    Bool.eq_false_iff.mpr
      (fun hx => hne ((sameNameType_toLibdns hg₀ hgr).mp hx).symm)]
  rfl

theorem runCreates_lib_mem {oid : Str} {r₀ : Record} (hg₀ : goodRec r₀)
    {recs : List Record} (hother : ∀ r ∈ recs, goodRec r ∧ recKey r ≠ recKey r₀)
    {st : List Event × Zone} (h : toLibdnsRecord r₀ ∈ st.2) :
    toLibdnsRecord r₀ ∈ (runCreates oid faithfulProvider recs st).2 := by
  induction recs generalizing st with
  | nil => exact h
  | cons c cs ih =>
    have hc := hother c (List.mem_cons_self c cs)
    exact ih (fun r hr => hother r (List.mem_cons_of_mem c hr))
      (createStep_lib_mem hg₀ hc.1 hc.2 h)

theorem runCreates_mem {oid : Str} {recs : List Record}
    (hg : ∀ r ∈ recs, goodRec r) (hnd : (recs.map recKey).Nodup)
    {r : Record} (hr : r ∈ recs) (st : List Event × Zone) :
    toLibdnsRecord r ∈ (runCreates oid faithfulProvider recs st).2 ∧
      makeTXTMarker oid r.name ∈ (runCreates oid faithfulProvider recs st).2 := by
  induction recs generalizing st with
  | nil => cases hr
  | cons c cs ih =>
    rw [List.map_cons] at hnd
    rcases List.mem_cons.mp hr with h1 | h2
    · subst h1
      have hgr := hg r (List.mem_cons_self r cs)
      have hin : toLibdnsRecord r ∈ (createStep oid faithfulProvider st r).2 := by
        rw [createStep_faithful_zone]
        exact mem_setRecords.mpr (Or.inr (List.mem_cons_self _ _))
      have hmk : makeTXTMarker oid r.name ∈ (createStep oid faithfulProvider st r).2 := by
        rw [createStep_faithful_zone]
        exact mem_setRecords.mpr (Or.inr
          (List.mem_cons_of_mem _ (List.mem_singleton.mpr rfl)))
      constructor
      · refine runCreates_lib_mem hgr (fun r' hr' => ⟨hg r' (List.mem_cons_of_mem r hr'), ?_⟩) hin
        intro he
        exact (List.nodup_cons.mp hnd).1 (he ▸ List.mem_map.mpr ⟨r', hr', rfl⟩)
      · exact runCreates_marker_mem
          (fun r' hr' => (hg r' (List.mem_cons_of_mem r hr')).1) hmk
    · exact ih (fun r' hr' => hg r' (List.mem_cons_of_mem c hr'))
        (List.nodup_cons.mp hnd).2 h2 _

theorem runUpdates_mem {recs : List Record}
    (hg : ∀ r ∈ recs, goodRec r) (hnd : (recs.map recKey).Nodup)
    {r : Record} (hr : r ∈ recs) (st : List Event × Zone) :
    toLibdnsRecord r ∈ (runUpdates faithfulProvider recs st).2 := by
  induction recs generalizing st with
  | nil => cases hr
  | cons c cs ih =>
    rw [List.map_cons] at hnd
    rcases List.mem_cons.mp hr with h1 | h2
    · subst h1
      have hgr := hg r (List.mem_cons_self r cs)
      have hin : toLibdnsRecord r ∈ (updateStep faithfulProvider st r).2 := by
        rw [updateStep_faithful_zone]
        exact mem_setRecords.mpr (Or.inr (List.mem_singleton.mpr rfl))
      refine runUpdates_lib_mem hgr (fun r' hr' => ⟨hg r' (List.mem_cons_of_mem r hr'), ?_⟩) hin
      intro he
      exact (List.nodup_cons.mp hnd).1 (he ▸ List.mem_map.mpr ⟨r', hr', rfl⟩)
    · exact ih (fun r' hr' => hg r' (List.mem_cons_of_mem c hr'))
        (List.nodup_cons.mp hnd).2 h2 _

theorem reconcileDomain_faithful (oid : Str) (zone : Zone) (records : List Record) :
    reconcileDomain oid faithfulProvider zone records =
      Except.ok (applyFaithful oid (parseOwnedRecords oid zone)
        (computePlan (parseOwnedRecords oid zone) (buildDesired records))
        ([Event.planned
            ((computePlan (parseOwnedRecords oid zone)
              (buildDesired records)).toCreate.map recKey)
            ((computePlan (parseOwnedRecords oid zone)
              (buildDesired records)).toUpdate.map recKey)
            (computePlan (parseOwnedRecords oid zone)
              (buildDesired records)).toDelete], zone)) := by
  unfold reconcileDomain
  rw [if_neg (by simp [faithfulProvider]), if_neg (by simp [faithfulProvider]),
    if_neg (by simp [faithfulProvider])]
  show Except.ok (phaseChain oid faithfulProvider (parseOwnedRecords oid zone)
    (computePlan (parseOwnedRecords oid zone) (buildDesired records))
    ([Event.planned
        ((computePlan (parseOwnedRecords oid zone)
          (buildDesired records)).toCreate.map recKey)
        ((computePlan (parseOwnedRecords oid zone)
          (buildDesired records)).toUpdate.map recKey)
        (computePlan (parseOwnedRecords oid zone)
          (buildDesired records)).toDelete], zone)) = _
  rw [phaseChain_faithful]
  rfl

theorem applyFaithful_mem {oid : Str} {owned : RecMap} {plan : Plan}
    {st : List Event × Zone} {x : LibdnsRecord}
    (hx : x ∈ (applyFaithful oid owned plan st).2) :
    (x ∈ st.2 ∧ delPred oid owned plan.toDelete x = true ∧
       createPred oid plan.toCreate x = true ∧ updatePred plan.toUpdate x = true) ∨
    ((∃ r ∈ plan.toCreate, x = toLibdnsRecord r ∨ x = makeTXTMarker oid r.name) ∧
       updatePred plan.toUpdate x = true) ∨
    (∃ r ∈ plan.toUpdate, x = toLibdnsRecord r) := by
  unfold applyFaithful at hx
  rcases runUpdates_zone plan.toUpdate
    (runCreates oid faithfulProvider plan.toCreate
      (runDeletes oid faithfulProvider owned plan.toDelete st)) with ⟨appU, hU, hUb⟩
  rw [hU] at hx
  rcases List.mem_append.mp hx with h | h
  · have h' := List.mem_filter.mp h
    rcases runCreates_zone oid plan.toCreate
      (runDeletes oid faithfulProvider owned plan.toDelete st) with ⟨appC, hC, hCb⟩
    rw [hC] at h'
    rcases List.mem_append.mp h'.1 with h2 | h2
    · have h3 := List.mem_filter.mp h2
      rw [runDeletes_zone] at h3
      have h4 := List.mem_filter.mp h3.1
      exact Or.inl ⟨h4.1, h4.2, h3.2, h'.2⟩
    · exact Or.inr (Or.inl ⟨hCb x h2, h'.2⟩)
  · exact Or.inr (Or.inr (hUb x h))

theorem applyFaithful_marker_mem {oid : Str} {owned : RecMap} {plan : Plan}
    {st : List Event × Zone} {n : Str}
    (hgC : ∀ r ∈ plan.toCreate, ¬ strHasPrefix r.name txtPrefix = true)
    (hgU : ∀ r ∈ plan.toUpdate, ¬ strHasPrefix r.name txtPrefix = true)
    (h : makeTXTMarker oid n ∈ st.2)
    (hdel : delPred oid owned plan.toDelete (makeTXTMarker oid n) = true) :
    makeTXTMarker oid n ∈ (applyFaithful oid owned plan st).2 := by
  unfold applyFaithful
  apply runUpdates_marker_mem hgU
  apply runCreates_marker_mem hgC
  rw [runDeletes_zone]
  exact List.mem_filter.mpr ⟨h, hdel⟩

theorem applyFaithful_create_mem {oid : Str} {owned : RecMap} {plan : Plan}
    {st : List Event × Zone}
    (hgC : ∀ r ∈ plan.toCreate, goodRec r)
    (hndC : (plan.toCreate.map recKey).Nodup)
    (hgU : ∀ u ∈ plan.toUpdate, goodRec u)
    {r : Record} (hr : r ∈ plan.toCreate)
    (hdisj : ∀ u ∈ plan.toUpdate, recKey u ≠ recKey r) :
    toLibdnsRecord r ∈ (applyFaithful oid owned plan st).2 := by
  unfold applyFaithful
  exact runUpdates_lib_mem (hgC r hr) (fun u hu => ⟨hgU u hu, hdisj u hu⟩)
    (runCreates_mem hgC hndC hr _).1

theorem applyFaithful_update_mem {oid : Str} {owned : RecMap} {plan : Plan}
    {st : List Event × Zone}
    (hgU : ∀ u ∈ plan.toUpdate, goodRec u)
    (hndU : (plan.toUpdate.map recKey).Nodup)
    {u : Record} (hu : u ∈ plan.toUpdate) :
    toLibdnsRecord u ∈ (applyFaithful oid owned plan st).2 :=
  runUpdates_mem hgU hndU hu _

theorem applyFaithful_noop_mem {oid : Str} {owned : RecMap} {plan : Plan}
    {st : List Event × Zone} {r₀ : Record} (hg₀ : goodRec r₀)
    (h : toLibdnsRecord r₀ ∈ st.2)
    (hdel : delPred oid owned plan.toDelete (toLibdnsRecord r₀) = true)
    (hCdisj : ∀ r ∈ plan.toCreate, goodRec r ∧ recKey r ≠ recKey r₀)
    (hUdisj : ∀ u ∈ plan.toUpdate, goodRec u ∧ recKey u ≠ recKey r₀) :
    toLibdnsRecord r₀ ∈ (applyFaithful oid owned plan st).2 := by
  unfold applyFaithful
  apply runUpdates_lib_mem hg₀ hUdisj
  apply runCreates_lib_mem hg₀ hCdisj
  rw [runDeletes_zone]
  exact List.mem_filter.mpr ⟨h, hdel⟩

theorem filter_map_keys_nodup (q : Str × Record → Bool) (D : List Record) :
    ((((buildDesired D).filter q).map (fun p => p.2)).map recKey).Nodup := by
  rw [List.map_map]
  have he : ((buildDesired D).filter q).map (recKey ∘ fun p => p.2) =
      ((buildDesired D).filter q).map (fun p => p.1) := by
    apply List.map_congr_left
    intro p hp
    rcases buildDesired_entry (List.mem_of_mem_filter hp) with ⟨r, _, hpr⟩
    rw [hpr]
    rfl
  rw [he]
  have hs : List.Sublist (((buildDesired D).filter q).map (fun p => p.1))
      (mkeys (buildDesired D)) :=
    List.Sublist.map (fun p : Str × Record => p.1)
      (List.filter_sublist (buildDesired D))
  exact List.Nodup.sublist hs (buildDesired_nodup D)

theorem toCreate_keys_nodup (owned : RecMap) (D : List Record) :
    (((computePlan owned (buildDesired D)).toCreate).map recKey).Nodup :=
  filter_map_keys_nodup _ D

theorem toUpdate_val_of_some {owned : RecMap} {p : Str × Record} {b : Record}
    (hf : (match mfind owned p.1 with
      | some existingRec =>
        if existingRec.value ≠ p.2.value ∨ ((0 : Int) < p.2.ttl ∧ existingRec.ttl ≠ p.2.ttl)
        then some p.2 else none
      | none => none) = some b) : b = p.2 := by
  cases hm : mfind owned p.1 with
  | none => rw [hm] at hf; cases hf
  | some e =>
    rw [hm] at hf
    have hf2 : (if e.value ≠ p.2.value ∨ ((0 : Int) < p.2.ttl ∧ e.ttl ≠ p.2.ttl)
        then some p.2 else none) = some b := hf
    by_cases hc : e.value ≠ p.2.value ∨ ((0 : Int) < p.2.ttl ∧ e.ttl ≠ p.2.ttl)
    · rw [if_pos hc] at hf2
      injection hf2 with h
      exact h.symm
    · rw [if_neg hc] at hf2
      cases hf2

theorem filterMap_map_sublist {α β γ : Type} (f : α → Option β) (gb : β → γ)
    (ga : α → γ) (l : List α) (h : ∀ a ∈ l, ∀ b, f a = some b → gb b = ga a) :
    List.Sublist ((l.filterMap f).map gb) (l.map ga) := by
  induction l with
  | nil => exact List.Sublist.refl _
  | cons a l ih =>
    rw [List.filterMap_cons, List.map_cons]
    cases hf : f a with
    | none =>
      exact List.Sublist.cons _ (ih (fun a' ha' => h a' (List.mem_cons_of_mem a ha')))
    | some b =>
      rw [List.map_cons, h a (List.mem_cons_self a l) b hf]
      exact List.Sublist.cons₂ _ (ih (fun a' ha' => h a' (List.mem_cons_of_mem a ha')))

theorem toUpdate_keys_nodup (owned : RecMap) (D : List Record) :
    (((computePlan owned (buildDesired D)).toUpdate).map recKey).Nodup := by
  refine List.Nodup.sublist ?_ (buildDesired_nodup D)
  show List.Sublist (((buildDesired D).filterMap (fun p =>
    match mfind owned p.1 with
    | some existingRec =>
      if existingRec.value ≠ p.2.value ∨
          ((0 : Int) < p.2.ttl ∧ existingRec.ttl ≠ p.2.ttl)
      then some p.2 else none
    | none => none)).map recKey) ((buildDesired D).map (fun p => p.1))
  apply filterMap_map_sublist
  intro p hp b hf
  rcases buildDesired_entry hp with ⟨r, _, hpr⟩
  rw [toUpdate_val_of_some hf, hpr]

theorem toCreate_buildDesired {owned : RecMap} {D : List Record} {r : Record}
    (h : r ∈ (computePlan owned (buildDesired D)).toCreate) :
    r ∈ D ∧ mfind owned (recKey r) = none := by
  rcases toCreate_mem.mp h with ⟨k, hk, hnone⟩
  rcases buildDesired_entry hk with ⟨r', hr', he⟩
  injection he with h1 h2
  subst h2
  exact ⟨hr', h1 ▸ hnone⟩

theorem toUpdate_buildDesired {owned : RecMap} {D : List Record} {r : Record}
    (h : r ∈ (computePlan owned (buildDesired D)).toUpdate) :
    r ∈ D ∧ ∃ e, mfind owned (recKey r) = some e ∧
      (e.value ≠ r.value ∨ ((0 : Int) < r.ttl ∧ e.ttl ≠ r.ttl)) := by
  rcases toUpdate_mem.mp h with ⟨k, e, hk, he, hcond⟩
  rcases buildDesired_entry hk with ⟨r', hr', hpe⟩
  injection hpe with h1 h2
  subst h2
  exact ⟨hr', e, h1 ▸ he, hcond⟩

theorem toUpdate_mfind_desired {owned : RecMap} {D : List Record} {u : Record}
    (h : u ∈ (computePlan owned (buildDesired D)).toUpdate) :
    mfind (buildDesired D) (recKey u) = some u := by
  rcases toUpdate_mem.mp h with ⟨k, e, hk, _, _⟩
  rcases buildDesired_entry hk with ⟨r', hr', hpe⟩
  injection hpe with h1 h2
  subst h2
  exact h1 ▸ mfind_of_mem (buildDesired_nodup D) hk

theorem toCreate_mfind_desired {owned : RecMap} {D : List Record} {r : Record}
    (h : r ∈ (computePlan owned (buildDesired D)).toCreate) :
    mfind (buildDesired D) (recKey r) = some r := by
  rcases toCreate_mem.mp h with ⟨k, hk, _⟩
  rcases buildDesired_entry hk with ⟨r', hr', hpe⟩
  injection hpe with h1 h2
  subst h2
  exact h1 ▸ mfind_of_mem (buildDesired_nodup D) hk

theorem sameNameType_rfl (x : LibdnsRecord) : sameNameType x x = true := by
  simp [sameNameType]

theorem dfltTTL_pos {t : Int} (h : 0 < t) : dfltTTL t = t := by
  unfold dfltTTL
  rw [if_neg (by omega)]

theorem storedTTL_pos {t : Int} (hok : ttlOK t) (h : 0 < t) : storedTTL t = t := by
  rw [storedTTL_ok hok.1 hok.2]
  exact dfltTTL_pos h

theorem plan_eq_empty {plan : Plan} (h1 : plan.toCreate = []) (h2 : plan.toUpdate = [])
    (h3 : plan.toDelete = []) : plan = emptyPlan := by
  cases plan with
  | mk c u d =>
    have h1' : c = [] := h1
    have h2' : u = [] := h2
    have h3' : d = [] := h3
    subst h1'
    subst h2'
    subst h3'
    rfl

theorem delTargets_map_pair {D₀ : List Record} (hnd : (D₀.map recKey).Nodup)
    {r₀ : Record} (hr₀ : r₀ ∈ D₀) (hok : ttlOK r₀.ttl) (oid : Str) :
    delTargets oid (D₀.map (fun r => (recKey r, defRec r))) (recKey r₀) =
      [toLibdnsRecord r₀, makeTXTMarker oid r₀.name] := by
  unfold delTargets
  rw [if_neg (by
    rw [show (recKey r₀).contains ':' = true from keyOf_contains_colon r₀.name r₀.type]
    simp), mfind_map_pair hnd hr₀]
  show [toLibdnsRecord (defRec r₀), makeTXTMarker oid (defRec r₀).name] = _
  rw [toLibdns_defRec hok]
  rfl

theorem toUpdate_step_none {owned : RecMap} {p : Str × Record}
    (h : ∀ e, mfind owned p.1 = some e →
      ¬ (e.value ≠ p.2.value ∨ ((0 : Int) < p.2.ttl ∧ e.ttl ≠ p.2.ttl))) :
    (match mfind owned p.1 with
      | some existingRec =>
        if existingRec.value ≠ p.2.value ∨ ((0 : Int) < p.2.ttl ∧ existingRec.ttl ≠ p.2.ttl)
        then some p.2 else none
      | none => none) = none := by
  cases hm : mfind owned p.1 with
  | none => rfl
  | some e => exact if_neg (h e hm)

theorem applyFaithful_create_marker_mem {oid : Str} {owned : RecMap} {plan : Plan}
    {st : List Event × Zone}
    (hgC : ∀ r ∈ plan.toCreate, goodRec r)
    (hndC : (plan.toCreate.map recKey).Nodup)
    (hgU : ∀ u ∈ plan.toUpdate, goodRec u)
    {r : Record} (hr : r ∈ plan.toCreate) :
    makeTXTMarker oid r.name ∈ (applyFaithful oid owned plan st).2 := by
  unfold applyFaithful
  exact runUpdates_marker_mem (fun u hu => (hgU u hu).1)
    (runCreates_mem hgC hndC hr _).2

theorem mem_mkeys_parseOwned {oid : Str} {zone : Zone} {s : Record}
    (hg : goodRec s) (hzin : toLibdnsRecord s ∈ zone)
    (hmk : makeTXTMarker oid s.name ∈ zone) :
    recKey s ∈ mkeys (parseOwnedRecords oid zone) := by
  have hclaim : (markerNames oid zone).contains (toLibdnsRecord s).RR.name = true := by
    rw [toLibdns_RR_name]
    exact List.elem_eq_true_of_mem (markerNames_mem.mpr
      ⟨makeTXTMarker oid s.name, hmk, rfl, strHasPrefix_append_self txtPrefix s.name,
        Or.inl rfl, (strTrimPrefix_append_self txtPrefix s.name).symm⟩)
  have hpre : ¬ strHasPrefix (toLibdnsRecord s).RR.name txtPrefix = true := by
    rw [toLibdns_RR_name]
    exact hg.1
  have h := classify_fold_keys_of_qual hzin hpre hclaim []
  have hk : keyOf (toLibdnsRecord s).RR.name (toLibdnsRecord s).RR.type = recKey s := by
    rw [toLibdns_RR_name, hg.2.2.1]
    rfl
  rw [hk] at h
  exact h

theorem toDelete_map_pair {D₀ D : List Record} {k : Str}
    (hk : k ∈ (computePlan (D₀.map (fun r => (recKey r, defRec r)))
      (buildDesired D)).toDelete) :
    ∃ r' ∈ D₀, k = recKey r' ∧ mfind (buildDesired D) (recKey r') = none := by
  rcases toDelete_mem.mp hk with ⟨hkO, hknone⟩
  rw [mkeys_map_pair] at hkO
  rcases List.mem_map.mp hkO with ⟨r', hr', hke⟩
  exact ⟨r', hr', hke.symm, by rw [hke]; exact hknone⟩

theorem idem_delPred_marker {oid : Str} {D₀ D : List Record}
    (h₀ : ∀ r ∈ D₀, goodRec r) (hnd : (D₀.map recKey).Nodup)
    (hsplit : ∀ r ∈ D₀, mfind (buildDesired D) (recKey r) = none →
      ∀ r' ∈ D₀, r'.name = r.name → mfind (buildDesired D) (recKey r') = none)
    {r₀ : Record} (hr₀ : r₀ ∈ D₀)
    (hsome : mfind (buildDesired D) (recKey r₀) ≠ none) :
    delPred oid (D₀.map (fun r => (recKey r, defRec r)))
      (computePlan (D₀.map (fun r => (recKey r, defRec r))) (buildDesired D)).toDelete
      (makeTXTMarker oid r₀.name) = true := by
  unfold delPred
  rw [Bool.not_eq_true']
  apply List.any_eq_false.mpr
  intro k hk
  rcases toDelete_map_pair hk with ⟨r', hr', hke, hnone⟩
  subst hke
  rw [delTargets_map_pair hnd hr' (h₀ r' hr').2.2.2.2 oid]
  intro hc
  rcases List.mem_cons.mp (List.mem_of_elem_eq_true hc) with he | he
  · exact toLibdns_ne_marker (h₀ r' hr').1 he.symm
  · exact hsome (hsplit r' hr' hnone r₀ hr₀
      (marker_eq_iff.mp (List.mem_singleton.mp he)))

theorem idem_delPred_lib {oid : Str} {D₀ D : List Record}
    (h₀ : ∀ r ∈ D₀, goodRec r) (hnd : (D₀.map recKey).Nodup)
    {r₀ : Record} (hg₀ : goodRec r₀)
    (hsome : mfind (buildDesired D) (recKey r₀) ≠ none) :
    delPred oid (D₀.map (fun r => (recKey r, defRec r)))
      (computePlan (D₀.map (fun r => (recKey r, defRec r))) (buildDesired D)).toDelete
      (toLibdnsRecord r₀) = true := by
  unfold delPred
  rw [Bool.not_eq_true']
  apply List.any_eq_false.mpr
  intro k hk
  rcases toDelete_map_pair hk with ⟨r', hr', hke, hnone⟩
  subst hke
  rw [delTargets_map_pair hnd hr' (h₀ r' hr').2.2.2.2 oid]
  intro hc
  rcases List.mem_cons.mp (List.mem_of_elem_eq_true hc) with he | he
  · have hs : sameNameType (toLibdnsRecord r₀) (toLibdnsRecord r') = true := by
      rw [he]
      exact sameNameType_rfl _
    exact hsome (by
      rw [(sameNameType_toLibdns hg₀ (h₀ r' hr')).mp hs]
      exact hnone)
  · exact toLibdns_ne_marker hg₀.1 (List.mem_singleton.mp he)

theorem idem_collect {oid : Str} {D₀ D : List Record}
    (h₀ : ∀ r ∈ D₀, goodRec r) (hD : ∀ r ∈ D, goodRec r)
    (hnd : (D₀.map recKey).Nodup)
    {st0 : List Event × Zone} (hst : st0.2 = materialize oid D₀)
    {x : LibdnsRecord}
    (hx : x ∈ (applyFaithful oid (D₀.map (fun r => (recKey r, defRec r)))
      (computePlan (D₀.map (fun r => (recKey r, defRec r))) (buildDesired D)) st0).2)
    (hpre : ¬ strHasPrefix x.RR.name txtPrefix = true) :
    ∃ s d', goodRec s ∧ x = toLibdnsRecord s ∧
      mfind (buildDesired D) (recKey s) = some d' ∧
      (defRec s).value = d'.value ∧ ((0:Int) < d'.ttl → (defRec s).ttl = d'.ttl) := by
  have hgC : ∀ r ∈ (computePlan (D₀.map (fun r => (recKey r, defRec r)))
      (buildDesired D)).toCreate, goodRec r :=
    fun r hr => hD r (toCreate_buildDesired hr).1
  have hgU : ∀ u ∈ (computePlan (D₀.map (fun r => (recKey r, defRec r)))
      (buildDesired D)).toUpdate, goodRec u :=
    fun u hu => hD u (toUpdate_buildDesired hu).1
  rcases applyFaithful_mem hx with
    ⟨hmem, hdel, _, hupd⟩ | ⟨⟨r, hr, hxf | hxf⟩, _⟩ | ⟨u, hu, hxf⟩
  · rw [hst] at hmem
    rcases mem_materialize.mp hmem with ⟨r₀, hr₀, hxf | hxf⟩
    · subst hxf
      have hg₀ := h₀ r₀ hr₀
      have hsome : mfind (buildDesired D) (recKey r₀) ≠ none := by
        intro hnone
        have hkd : recKey r₀ ∈ (computePlan (D₀.map (fun r => (recKey r, defRec r)))
            (buildDesired D)).toDelete :=
          toDelete_mem.mpr ⟨by
            rw [mkeys_map_pair]
            exact List.mem_map.mpr ⟨r₀, hr₀, rfl⟩, hnone⟩
        unfold delPred at hdel
        rw [Bool.not_eq_true'] at hdel
        have hcnt := List.any_eq_false.mp hdel _ hkd
        rw [delTargets_map_pair hnd hr₀ hg₀.2.2.2.2 oid] at hcnt
        exact hcnt (List.elem_eq_true_of_mem (List.mem_cons_self _ _))
      rcases Option.ne_none_iff_exists'.mp hsome with ⟨d', hd'⟩
      have hkd' := mfind_buildDesired_key hd'
      by_cases hcond : (defRec r₀).value ≠ d'.value ∨
          ((0:Int) < d'.ttl ∧ (defRec r₀).ttl ≠ d'.ttl)
      · exfalso
        have hdu : d' ∈ (computePlan (D₀.map (fun r => (recKey r, defRec r)))
            (buildDesired D)).toUpdate :=
          toUpdate_mem.mpr ⟨recKey r₀, defRec r₀, mfind_mem hd',
            mfind_map_pair hnd hr₀, hcond⟩
        unfold updatePred at hupd
        rw [Bool.not_eq_true'] at hupd
        have h2 := List.any_eq_false.mp hupd _ hdu
        exact h2 ((sameNameType_toLibdns hg₀ (hD d' hkd'.2)).mpr hkd'.1)
      · push_neg at hcond
        exact ⟨r₀, d', hg₀, rfl, hd', hcond.1, fun hpos => hcond.2 hpos⟩
    · subst hxf
      exact absurd (strHasPrefix_append_self txtPrefix r₀.name) hpre
  · subst hxf
    exact ⟨r, r, hgC r hr, rfl, toCreate_mfind_desired hr, rfl,
      fun hpos => storedTTL_pos (hgC r hr).2.2.2.2 hpos⟩
  · subst hxf
    exact absurd (strHasPrefix_append_self txtPrefix r.name) hpre
  · subst hxf
    exact ⟨u, u, hgU u hu, rfl, toUpdate_mfind_desired hu, rfl,
      fun hpos => storedTTL_pos (hgU u hu).2.2.2.2 hpos⟩

theorem mfind_buildDesired_entry {D : List Record} {p : Str × Record}
    (hp : p ∈ buildDesired D) : mfind (buildDesired D) p.1 = some p.2 :=
  mfind_of_mem (buildDesired_nodup D) hp

theorem idem_key_present {oid : Str} {D₀ D : List Record}
    (h₀ : ∀ r ∈ D₀, goodRec r) (hD : ∀ r ∈ D, goodRec r)
    (hnd : (D₀.map recKey).Nodup)
    (hsplit : ∀ r ∈ D₀, mfind (buildDesired D) (recKey r) = none →
      ∀ r' ∈ D₀, r'.name = r.name → mfind (buildDesired D) (recKey r') = none)
    {st0 : List Event × Zone} (hst : st0.2 = materialize oid D₀)
    {p : Str × Record} (hp : p ∈ buildDesired D) :
    p.1 ∈ mkeys (parseOwnedRecords oid
      ((applyFaithful oid (D₀.map (fun r => (recKey r, defRec r)))
        (computePlan (D₀.map (fun r => (recKey r, defRec r)))
          (buildDesired D)) st0).2)) := by
  have hgC : ∀ r ∈ (computePlan (D₀.map (fun r => (recKey r, defRec r)))
      (buildDesired D)).toCreate, goodRec r :=
    fun r hr => hD r (toCreate_buildDesired hr).1
  have hgU : ∀ u ∈ (computePlan (D₀.map (fun r => (recKey r, defRec r)))
      (buildDesired D)).toUpdate, goodRec u :=
    fun u hu => hD u (toUpdate_buildDesired hu).1
  have hndC := toCreate_keys_nodup (D₀.map (fun r => (recKey r, defRec r))) D
  have hndU := toUpdate_keys_nodup (D₀.map (fun r => (recKey r, defRec r))) D
  rcases buildDesired_entry hp with ⟨d, hd, hpe⟩
  subst hpe
  show recKey d ∈ _
  have hgd := hD d hd
  have hwin : mfind (buildDesired D) (recKey d) = some d := mfind_buildDesired_entry hp
  by_cases hO : mfind (D₀.map (fun r => (recKey r, defRec r))) (recKey d) = none
  · have hdc : d ∈ (computePlan (D₀.map (fun r => (recKey r, defRec r)))
        (buildDesired D)).toCreate :=
      toCreate_mem.mpr ⟨recKey d, hp, hO⟩
    have hUd : ∀ u ∈ (computePlan (D₀.map (fun r => (recKey r, defRec r)))
        (buildDesired D)).toUpdate, recKey u ≠ recKey d := by
      intro u hu hke
      rcases (toUpdate_buildDesired hu).2 with ⟨e, he, _⟩
      rw [hke, hO] at he
      cases he
    exact mem_mkeys_parseOwned hgd
      (applyFaithful_create_mem hgC hndC hgU hdc hUd)
      (applyFaithful_create_marker_mem hgC hndC hgU hdc)
  · rcases Option.ne_none_iff_exists'.mp hO with ⟨e, he⟩
    rcases mfind_map_pair_inv he with ⟨r₀, hr₀, hke, hee⟩
    subst hee
    have hg₀ := h₀ r₀ hr₀
    have hnames := keyOf_inj hgd.2.1 hg₀.2.1 hke
    have hsome : mfind (buildDesired D) (recKey r₀) ≠ none := by
      rw [← hke, hwin]
      exact Option.some_ne_none d
    have hmk : makeTXTMarker oid r₀.name ∈
        (applyFaithful oid (D₀.map (fun r => (recKey r, defRec r)))
          (computePlan (D₀.map (fun r => (recKey r, defRec r)))
            (buildDesired D)) st0).2 :=
      applyFaithful_marker_mem (fun r hr => (hgC r hr).1) (fun u hu => (hgU u hu).1)
        (by
          rw [hst]
          exact mem_materialize.mpr ⟨r₀, hr₀, Or.inr rfl⟩)
        (idem_delPred_marker h₀ hnd hsplit hr₀ hsome)
    by_cases hcond : (defRec r₀).value ≠ d.value ∨
        ((0:Int) < d.ttl ∧ (defRec r₀).ttl ≠ d.ttl)
    · have hdu : d ∈ (computePlan (D₀.map (fun r => (recKey r, defRec r)))
          (buildDesired D)).toUpdate :=
        toUpdate_mem.mpr ⟨recKey d, defRec r₀, hp, he, hcond⟩
      exact mem_mkeys_parseOwned hgd (applyFaithful_update_mem hgU hndU hdu)
        (by
          rw [hnames.1]
          exact hmk)
    · have hCd : ∀ r ∈ (computePlan (D₀.map (fun r => (recKey r, defRec r)))
          (buildDesired D)).toCreate, goodRec r ∧ recKey r ≠ recKey r₀ := by
        intro r hr
        refine ⟨hgC r hr, ?_⟩
        intro hkeq
        have hn := (toCreate_buildDesired hr).2
        rw [hkeq, ← hke, he] at hn
        cases hn
      have hUd : ∀ u ∈ (computePlan (D₀.map (fun r => (recKey r, defRec r)))
          (buildDesired D)).toUpdate, goodRec u ∧ recKey u ≠ recKey r₀ := by
        intro u hu
        refine ⟨hgU u hu, ?_⟩
        intro hkeq
        have hmu := toUpdate_mfind_desired hu
        rw [hkeq, ← hke, hwin] at hmu
        injection hmu with hud
        rcases (toUpdate_buildDesired hu).2 with ⟨e', he', hcond'⟩
        rw [hkeq, ← hke, he] at he'
        injection he' with hee'
        subst hud
        rw [← hee'] at hcond'
        exact hcond hcond'
      have hzin : toLibdnsRecord r₀ ∈
          (applyFaithful oid (D₀.map (fun r => (recKey r, defRec r)))
            (computePlan (D₀.map (fun r => (recKey r, defRec r)))
              (buildDesired D)) st0).2 :=
        applyFaithful_noop_mem hg₀
          (by
            rw [hst]
            exact mem_materialize.mpr ⟨r₀, hr₀, Or.inl rfl⟩)
          (idem_delPred_lib h₀ hnd hg₀ hsome) hCd hUd
      rw [hke]
      exact mem_mkeys_parseOwned hg₀ hzin hmk

theorem idem_plan_empty {oid : Str} {D₀ D : List Record}
    (h₀ : ∀ r ∈ D₀, goodRec r) (hD : ∀ r ∈ D, goodRec r)
    (hnd : (D₀.map recKey).Nodup)
    (hsplit : ∀ r ∈ D₀, mfind (buildDesired D) (recKey r) = none →
      ∀ r' ∈ D₀, r'.name = r.name → mfind (buildDesired D) (recKey r') = none)
    {st0 : List Event × Zone} (hst : st0.2 = materialize oid D₀) :
    planOf oid ((applyFaithful oid (D₀.map (fun r => (recKey r, defRec r)))
      (computePlan (D₀.map (fun r => (recKey r, defRec r)))
        (buildDesired D)) st0).2) D = emptyPlan := by
  set z₂ := (applyFaithful oid (D₀.map (fun r => (recKey r, defRec r)))
    (computePlan (D₀.map (fun r => (recKey r, defRec r)))
      (buildDesired D)) st0).2 with hz₂
  apply plan_eq_empty
  · show ((buildDesired D).filter
      (fun p => (mfind (parseOwnedRecords oid z₂) p.1).isNone)).map (fun p => p.2) = []
    have hnil : (buildDesired D).filter
        (fun p => (mfind (parseOwnedRecords oid z₂) p.1).isNone) = [] := by
      apply List.filter_eq_nil.mpr
      intro p hp hisnone
      have hkey := idem_key_present h₀ hD hnd hsplit hst hp
      exact mfind_eq_none.mp (Option.isNone_iff_eq_none.mp hisnone) hkey
    rw [hnil]
    rfl
  · show (buildDesired D).filterMap (fun p =>
      match mfind (parseOwnedRecords oid z₂) p.1 with
      | some existingRec =>
        if existingRec.value ≠ p.2.value ∨
            ((0 : Int) < p.2.ttl ∧ existingRec.ttl ≠ p.2.ttl)
        then some p.2 else none
      | none => none) = []
    apply List.filterMap_eq_nil.mpr
    intro p hp
    apply toUpdate_step_none
    intro e he hcond
    rcases parseOwned_entry (mfind_mem he) with ⟨z, hz, hzpre, _, hpe⟩
    injection hpe with hpk hpv
    rcases idem_collect h₀ hD hnd hst hz hzpre with ⟨s, d', hgs, hzs, hfind, hval, httl⟩
    have hkey : p.1 = recKey s := by
      rw [hpk, hzs, toLibdns_RR_name, hgs.2.2.1]
      rfl
    have hv : e = defRec s := by
      rw [hpv, hzs]
      exact reconstruct_toLibdns hgs.2.2.1 hgs.2.2.2.1
    have hw := mfind_buildDesired_entry hp
    rw [hkey, hfind] at hw
    injection hw with hw2
    rcases hcond with hvne | ⟨hpos, htne⟩
    · apply hvne
      rw [hv, ← hw2]
      exact hval
    · apply htne
      rw [hv, ← hw2]
      exact httl (by
        rw [hw2]
        exact hpos)
  · show ((parseOwnedRecords oid z₂).filter
      (fun p => (mfind (buildDesired D) p.1).isNone)).map (fun p => p.1) = []
    have hnil : (parseOwnedRecords oid z₂).filter
        (fun p => (mfind (buildDesired D) p.1).isNone) = [] := by
      apply List.filter_eq_nil.mpr
      intro p hp hisnone
      rcases parseOwned_entry hp with ⟨z, hz, hzpre, _, hpe⟩
      rcases idem_collect h₀ hD hnd hst hz hzpre with ⟨s, d', hgs, hzs, hfind, _, _⟩
      have hpk : p.1 = keyOf z.RR.name z.RR.type := by
        rw [hpe]
      have hkey : p.1 = recKey s := by
        rw [hpk, hzs, toLibdns_RR_name, hgs.2.2.1]
        rfl
      rw [hkey, hfind] at hisnone
      cases hisnone
    rw [hnil]
    rfl

/-- The TTL wraparound is observable end to end: a declared TTL of 10^10
seconds overflows `time.Duration(rec.TTL) * time.Second`, so the record is
written with a wrapped duration, read back with TTL -8446744073, and since
10^10 > 0 the diff plans the same update on every subsequent pass. -/
theorem ttl_wrap_not_idempotent :
    ∃ tr z₂, reconcileDomain "X".data faithfulProvider []
        [⟨"w".data, "TXT".data, "v".data, 10000000000⟩] = Except.ok (tr, z₂) ∧
      (planOf "X".data z₂
        [⟨"w".data, "TXT".data, "v".data, 10000000000⟩]).toUpdate =
        [⟨"w".data, "TXT".data, "v".data, 10000000000⟩] := by
  refine ⟨_, _, rfl, ?_⟩
  decide

/-- C5 counterexample: the idempotence claim quantifies over every declared
set; for the empty owned index and a declared record named inside the marker
namespace (here a TXT record called (an underscore)cdr.x), one faithful
reconciliation pass succeeds, yet re-fetching, re-classifying and re-diffing
the resulting zone against the same declared set plans the same create again:
the second plan is not empty. -/
theorem reconcile_idempotent_refuted :
    ∃ tr z₂, reconcileDomain "X".data faithfulProvider []
        [⟨"_cdr.x".data, "TXT".data, "v".data, 0⟩] = Except.ok (tr, z₂) ∧
      planOf "X".data z₂ [⟨"_cdr.x".data, "TXT".data, "v".data, 0⟩] ≠ emptyPlan := by
  refine ⟨_, _, rfl, ?_⟩
  decide

/-- C5 (amended): applying the plan computed for a zone this instance wrote
itself (each declared record of a well-behaved owned list next to its
ownership marker) against a well-behaved declared set, with a fully capable
provider that applies every request faithfully, and then re-fetching,
re-classifying and re-diffing against the same declared set yields the empty
plan. Well-behaved means: no record name inside the marker namespace or
containing a colon, record types and values reproduced by the codec, TTLs
whose nanosecond duration fits in int64 without wraparound, distinct owned
keys, and deletions never removing only part of the owned records sharing
one name (otherwise the shared marker of a surviving record would be
deleted with them). -/
theorem reconcile_idempotent (oid : Str) (D₀ D : List Record)
    (h₀ : ∀ r ∈ D₀, goodRec r) (hD : ∀ r ∈ D, goodRec r)
    (hnd : (D₀.map recKey).Nodup)
    (hsplit : ∀ r ∈ D₀, mfind (buildDesired D) (recKey r) = none →
      ∀ r' ∈ D₀, r'.name = r.name → mfind (buildDesired D) (recKey r') = none) :
    ∃ tr z₂, reconcileDomain oid faithfulProvider (materialize oid D₀) D =
        Except.ok (tr, z₂) ∧ planOf oid z₂ D = emptyPlan := by
  have heq := reconcileDomain_faithful oid (materialize oid D₀) D
  rw [parseOwned_materialize h₀ hnd] at heq
  exact ⟨_, _, heq, idem_plan_empty h₀ hD hnd hsplit rfl⟩

/-- Witness for the amended C5 theorem at a concrete input: one owned A
record with a declared TTL change to the unset value. -/
theorem reconcile_idempotent_witness :
    ∃ tr z₂, reconcileDomain "X".data faithfulProvider
        (materialize "X".data [⟨"www".data, "A".data, "1.2.3.4".data, 300⟩])
        [⟨"www".data, "A".data, "1.2.3.4".data, 0⟩] = Except.ok (tr, z₂) ∧
      planOf "X".data z₂ [⟨"www".data, "A".data, "1.2.3.4".data, 0⟩] = emptyPlan :=
  reconcile_idempotent "X".data [⟨"www".data, "A".data, "1.2.3.4".data, 300⟩]
    [⟨"www".data, "A".data, "1.2.3.4".data, 0⟩]
    (by
      intro r hr
      rw [List.mem_singleton] at hr
      subst hr
      exact ⟨by decide, by decide, by decide, by decide, by decide, by decide⟩)
    (by
      intro r hr
      rw [List.mem_singleton] at hr
      subst hr
      exact ⟨by decide, by decide, by decide, by decide, by decide, by decide⟩)
    (by decide) (by decide)
